import Mathlib

/-!
Outcome reducer of the Qase reporter

A shallow embedding of `parseCorrectTestCases`
(`validation/pipeline/qase/reporter/main.go`, lines 135-179) together with the
two regular expressions it uses (lines 32-39), and theorems about it.

Modelling conventions.

* Go strings are Lean `String`s (sequences of Unicode characters).  The code
  only inspects the separator `/` and the ASCII class `\w`, both single-byte, so
  on valid UTF-8 text the byte view and the character view coincide.
* `map[string]*testcase.GoTestCase` is an association list with at most one
  entry per key.  Every stored pointer is created by the `run` branch and stored
  under exactly one key, so there is no aliasing and a mutation through the
  pointer is a replacement of the value stored under that key.  The order of
  the list has no counterpart in the program.
* A nil-pointer dereference is a panic: the function returns `none`.
-/

namespace QaseReporter

/-! ## Data model -/

/-- Modelled from the spec: the declaration of `testcase.GoTestOutput` (package
`validation/pipeline/qase/testcase`) is not among the sources.  The reducer reads
the four fields below, all of them as strings (`Elapsed` is assigned to
`GoTestCase.Elapsed`, which `updateTestInRun` compares with `""`). -/
structure GoTestOutput where
  Action : String
  Test : String
  Output : String := ""
  Elapsed : String := ""
  deriving DecidableEq, Repr

/-- Modelled from the spec: the declaration of `testcase.GoTestCase` is not among
the sources.  The fields are the ones `main.go` reads and writes; a fresh value
`&testcase.GoTestCase{Name: n}` has every other field at its zero value. -/
structure GoTestCase where
  Name : String
  TestSuite : List String := []
  Status : String := ""
  StackTrace : String := ""
  Elapsed : String := ""
  deriving DecidableEq, Repr

/-- Constant `failStatus` (line 26). -/
def failStatus : String := "fail"

/-- Constant `passStatus` (line 27). -/
def passStatus : String := "pass"

/-- Constant `skipStatus` (line 28). -/
def skipStatus : String := "skip"

/-! ## Strings -/

/-- The call `strings.Contains(s, "/")`. -/
def containsSlash (s : String) : Bool := s.data.contains '/'

/-- The call `strings.Split(s, "/")` on the characters of `s`: one more segment than
there are separators, so never an empty slice. -/
def splitOnSlash : List Char → List (List Char)
  | [] => [[]]
  | c :: cs =>
    if c = '/' then [] :: splitOnSlash cs
    else
      match splitOnSlash cs with
      | [] => [[c]]
      | seg :: rest => (c :: seg) :: rest

/-- The call `strings.Split(s, "/")`. -/
def stringsSplit (s : String) : List String := (splitOnSlash s.data).map String.mk

/-- The call `strings.Join(segs, "/")`. -/
def stringsJoin : List String → String
  | [] => ""
  | [s] => s
  | s :: t :: rest => s ++ "/" ++ stringsJoin (t :: rest)

/-! ## The two regular expressions

Go's `regexp` is unanchored, leftmost-first, and its `\w` is the ASCII class
`[0-9A-Za-z_]`.  Since `/` is not in `\w`, a `\w+` that must be followed by `/`
(or that ends the match, being greedy) has only one way to match from a given
start: the whole run of word characters found there. -/

/-- The class `\w`: `[0-9A-Za-z_]`. -/
def isWordChar (c : Char) : Bool := c.isAlphanum || c == '_'

/-- A match of `\w+/\w+` that starts at the head of `s`, if there is one. -/
def matchSubTestAt (s : List Char) : Option (List Char) :=
  let w1 := s.takeWhile isWordChar
  if w1.isEmpty then none
  else
    match s.dropWhile isWordChar with
    | '/' :: r =>
      let w2 := r.takeWhile isWordChar
      if w2.isEmpty then none else some (w1 ++ '/' :: w2)
    | _ => none

/-- The leftmost match of `\w+/\w+` in `s`, if there is one. -/
def findSubTest : List Char → Option (List Char)
  | [] => none
  | c :: cs =>
    match matchSubTestAt (c :: cs) with
    | some m => some m
    | none => findSubTest cs

/-- The call `subTestReg.FindString(s)` for `subtestPattern = (\w+/\w+){1,1}`: the
text of the leftmost match, `""` when there is none. -/
def subTestRegFindString (s : String) : String :=
  match findSubTest s.data with
  | some m => String.mk m
  | none => ""

/-- Whether `\w+/\w+/\w+` matches at the head of `s`. -/
def matchMultiSubTestAt (s : List Char) : Bool :=
  !(s.takeWhile isWordChar).isEmpty &&
    match s.dropWhile isWordChar with
    | '/' :: r =>
      !(r.takeWhile isWordChar).isEmpty &&
        match r.dropWhile isWordChar with
        | '/' :: c :: _ => isWordChar c
        | _ => false
    | _ => false

/-- Whether `\w+/\w+/\w+` matches somewhere in `s`. -/
def existsMultiSubTest : List Char → Bool
  | [] => false
  | c :: cs => matchMultiSubTestAt (c :: cs) || existsMultiSubTest cs

/-- The call `multiSubTestReg.MatchString(s)` for
`multiSubTestPattern = (\w+/\w+/\w+){1,}`: one or more repetitions match somewhere
exactly when a single one does. -/
def multiSubTestRegMatchString (s : String) : Bool := existsMultiSubTest s.data

/-! ## The map -/

/-- The type `map[string]*testcase.GoTestCase`. -/
abbrev TestCaseMap := List (String × GoTestCase)

namespace TestCaseMap

/-- The lookup `m[k]`; `none` is the nil pointer of a missing key. -/
def get (m : TestCaseMap) (k : String) : Option GoTestCase := List.lookup k m

/-- The statement `delete(m, k)`. -/
def delete (m : TestCaseMap) (k : String) : TestCaseMap := m.filter (fun e => e.1 != k)

/-- The statement `m[k] = v`. -/
def set (m : TestCaseMap) (k : String) (v : GoTestCase) : TestCaseMap := (k, v) :: m.delete k

/-- The keys of the map. -/
def keys (m : TestCaseMap) : List String := m.map Prod.fst

end TestCaseMap

/-! ## The reducer -/

/-- The local variables of `parseCorrectTestCases` during its first loop.
`deletions` is a history variable, not program state: it records, in order, the key
of every execution of `delete(finalTestCases, deletedTest)` at line 159.  Nothing
reads it. -/
structure LoopState where
  finalTestCases : TestCaseMap := []
  deletedTest : String := ""
  timeoutFailure : Bool := false
  deletions : List String := []
  deriving DecidableEq, Repr

/-- One iteration of the first loop (lines 139-166).  `none` is the panic of
dereferencing the nil pointer at line 145. -/
def loopBody (st : LoopState) (testCase : GoTestOutput) : Option LoopState :=
  if testCase.Action = "run" ∧ containsSlash testCase.Test = true then
    let newTestCase : GoTestCase := { Name := testCase.Test }
    some { st with finalTestCases := st.finalTestCases.set testCase.Test newTestCase }
  else if testCase.Action = "output" ∧ containsSlash testCase.Test = true then
    match st.finalTestCases.get testCase.Test with
    | none => none
    | some goTestCase =>
      some { st with
        finalTestCases := st.finalTestCases.set testCase.Test
          { goTestCase with StackTrace := goTestCase.StackTrace ++ testCase.Output } }
  else if testCase.Action = skipStatus then
    some { st with finalTestCases := st.finalTestCases.delete testCase.Test }
  else if (testCase.Action = failStatus ∨ testCase.Action = passStatus)
      ∧ containsSlash testCase.Test = true then
    match st.finalTestCases.get testCase.Test with
    | none => some st
    | some goTestCase =>
      let substring := subTestRegFindString goTestCase.Name
      let updated : GoTestCase :=
        { goTestCase with
          StackTrace := goTestCase.StackTrace ++ testCase.Output
          Status := testCase.Action
          Elapsed := testCase.Elapsed }
      let m := st.finalTestCases.set testCase.Test updated
      if multiSubTestRegMatchString updated.Name = true ∧ substring ≠ st.deletedTest then
        let deletedTest := subTestRegFindString updated.Name
        some { st with
          finalTestCases := m.delete deletedTest
          deletedTest := deletedTest
          deletions := st.deletions ++ [deletedTest] }
      else
        some { st with finalTestCases := m }
  else if testCase.Action = failStatus ∧ testCase.Test = "" then
    some { st with timeoutFailure := true }
  else
    some st

/-- The first loop (lines 139-166) from a given state. -/
def runLoop : LoopState → List GoTestOutput → Option LoopState
  | st, [] => some st
  | st, testCase :: rest =>
    match loopBody st testCase with
    | none => none
    | some st' => runLoop st' rest

/-- The body of the second loop (lines 169-175) on one entry.  The index
`len(testSuite)-1` is always in range because `strings.Split` never returns an
empty slice (`stringsSplit_ne_nil`). -/
def finalizeTestCase (timeoutFailure : Bool) (testCase : GoTestCase) : GoTestCase :=
  let testSuite := stringsSplit testCase.Name
  let testName := testSuite.getD (testSuite.length - 1) ""
  { testCase with
    Name := testName
    TestSuite := testSuite.take (testSuite.length - 1)
    Status := if timeoutFailure = true ∧ testCase.Status = "" then failStatus
              else testCase.Status }

/-- The second loop (lines 168-176): every entry is rewritten in place,
independently of the others. -/
def finalizeAll (timeoutFailure : Bool) (m : TestCaseMap) : TestCaseMap :=
  m.map (fun e => (e.1, finalizeTestCase timeoutFailure e.2))

/-- The state when the first loop starts (lines 136-138). -/
def initState : LoopState := {}

/-- The function `parseCorrectTestCases` (lines 135-179). -/
def parseCorrectTestCases (testCases : List GoTestOutput) : Option TestCaseMap :=
  match runLoop initState testCases with
  | none => none
  | some st => some (finalizeAll st.timeoutFailure st.finalTestCases)

/-! ## Reading the event sequence

The vocabulary in which the theorems describe an event sequence. -/

/-- Whether `e` is a `run` event for the path `p`. -/
def isRunOf (p : String) (e : GoTestOutput) : Bool := e.Action == "run" && e.Test == p

/-- Whether `e` is an `output`, `pass` or `fail` event for the path `p`. -/
def writesTrace (p : String) (e : GoTestOutput) : Bool :=
  e.Test == p && (e.Action == "output" || e.Action == passStatus || e.Action == failStatus)

/-- Whether `e` is a `pass` or `fail` event for the path `p`. -/
def isVerdictOf (p : String) (e : GoTestOutput) : Bool :=
  e.Test == p && (e.Action == passStatus || e.Action == failStatus)

/-- Whether `e` is the timeout marker: a `fail` event with an empty path. -/
def isTimeout (e : GoTestOutput) : Bool := e.Action == failStatus && e.Test == ""

/-- The events that follow the last `run p` event, if there is a `run p` event. -/
def afterLastRun (p : String) : List GoTestOutput → Option (List GoTestOutput)
  | [] => none
  | e :: es =>
    match afterLastRun p es with
    | some post => some post
    | none => if isRunOf p e then some es else none

/-- The in-order concatenation of the `Output` fields of the `output`, `pass` and
`fail` events for `p` in `es`. -/
def traceOf (p : String) (es : List GoTestOutput) : String :=
  String.join ((es.filter (writesTrace p)).map GoTestOutput.Output)

/-- The last `pass` or `fail` event for `p` in `es`, if there is one. -/
def lastVerdict (p : String) (es : List GoTestOutput) : Option GoTestOutput :=
  (es.filter (isVerdictOf p)).getLast?

/-- The path `p` without its last segment. -/
def parentPath (p : String) : String :=
  stringsJoin ((stringsSplit p).take ((stringsSplit p).length - 1))

/-- What the first loop maintains about the entry `tc` stored under the key `p` once
the events `es` have been processed. -/
def EntryInv (es : List GoTestOutput) (p : String) (tc : GoTestCase) : Prop :=
  tc.Name = p ∧ containsSlash p = true ∧ tc.TestSuite = [] ∧
    ∃ post, afterLastRun p es = some post ∧
      tc.StackTrace = traceOf p post ∧
      tc.Status = ((lastVerdict p post).map GoTestOutput.Action).getD "" ∧
      tc.Elapsed = ((lastVerdict p post).map GoTestOutput.Elapsed).getD ""

/-- What the first loop maintains about `deletedTest`: it is the key of the most
recent parent deletion, and no two consecutive parent deletions have the same key. -/
def DeletionInv (st : LoopState) : Prop :=
  st.deletedTest = st.deletions.getLast?.getD "" ∧ List.Chain' (fun a b => a ≠ b) st.deletions

/-! ## The retry loop of `main`

`main` (lines 55-78) hands a condition function to `wait.PollUntilContextTimeout`.
The condition calls `reportTestQases` and decides from the returned pair
`(statusCode, err)` alone; the calls themselves (file, network) are the environment,
given here as the sequence of pairs that successive calls return. -/

/-- Constant `http.StatusTooManyRequests` of the Go standard library. -/
def statusTooManyRequests : Int := 429

/-- What one call of `reportTestQases` returns (lines 181-236): the pair `(int, error)`.
An error is represented by its message; `none` is the nil error. -/
structure AttemptResult where
  statusCode : Int
  err : Option String
  deriving DecidableEq, Repr

/-- The condition function of lines 60-74, after its call of `reportTestQases` has
returned `r`: the pair `(done, err)` it returns. -/
def pollCondition (r : AttemptResult) : Bool × Option String :=
  match r.err with
  | none => (true, none)
  | some e =>
    if r.statusCode = statusTooManyRequests then (false, none)
    else (false, some e)

/-- How a poll ends: the condition reported done, the condition returned an error, or
the deadline passed. -/
inductive PollEnd where
  | done
  | failed (e : String)
  | deadline
  deriving DecidableEq, Repr

/-- A finished poll: how many times the condition was called, and how the poll ended. -/
structure PollRun where
  attempts : Nat
  ending : PollEnd
  deriving DecidableEq, Repr

/-- Modelled from the spec: `wait.PollUntilContextTimeout` belongs to the library
`k8s.io/apimachinery` and is not among the sources.  The bounded retry loop calls the
condition, stops with the condition's error when it returns one, stops successfully
when it reports done, and otherwise waits one interval and calls it again, until the
overall timeout.  Time is not represented: `budget` is the number of intervals that
elapse before the deadline, `k` the number of calls already made, and `attempt i` what
the call number `i` of `reportTestQases` returns.  With `immediate = true` (line 59)
the first call is made without waiting. -/
def pollFrom (attempt : Nat → AttemptResult) : Nat → Nat → PollRun
  | 0, k =>
    match pollCondition (attempt k) with
    | (_, some e) => { attempts := k + 1, ending := PollEnd.failed e }
    | (true, none) => { attempts := k + 1, ending := PollEnd.done }
    | (false, none) => { attempts := k + 1, ending := PollEnd.deadline }
  | budget + 1, k =>
    match pollCondition (attempt k) with
    | (_, some e) => { attempts := k + 1, ending := PollEnd.failed e }
    | (true, none) => { attempts := k + 1, ending := PollEnd.done }
    | (false, none) => pollFrom attempt budget (k + 1)

/-- The call `wait.PollUntilContextTimeout(ctx, interval, timeout, true, condition)` of
lines 55-75, from its first call of the condition. -/
def pollUntilContextTimeout (attempt : Nat → AttemptResult) (budget : Nat) : PollRun :=
  pollFrom attempt budget 0

/-- Whether the result `r` of an attempt is a rate-limit failure: an error together
with the status 429. -/
def isRateLimited (r : AttemptResult) : Prop :=
  r.err ≠ none ∧ r.statusCode = statusTooManyRequests

/-! ## Lemmas: the map -/

namespace TestCaseMap

theorem get_nil (k : String) : get [] k = none := rfl

theorem get_delete (m : TestCaseMap) (k p : String) :
    get (delete m k) p = if p = k then none else get m p := by
  induction m with
  | nil => simp [get, delete]
  | cons e m ih =>
    obtain ⟨a, v⟩ := e
    simp only [get, delete] at ih ⊢
    by_cases hak : a = k
    · subst hak
      by_cases hp : p = a
      · subst hp
        simpa [List.filter_cons] using ih
      · have hpa : (p == a) = false := by simpa using hp
        simp only [List.filter_cons, bne_self_eq_false, Bool.false_eq_true, if_false, ih, hp,
          List.lookup_cons, hpa]
    · have hne : (a != k) = true := by simpa using hak
      simp only [List.filter_cons, hne, if_true, List.lookup_cons, ih]
      by_cases hp : p = k
      · subst hp
        have hpa : (p == a) = false := by
          simp only [beq_eq_false_iff_ne, ne_eq]
          exact fun h => hak h.symm
        simp [hpa]
      · simp [hp]

theorem get_set (m : TestCaseMap) (k p : String) (v : GoTestCase) :
    get (set m k v) p = if p = k then some v else get m p := by
  have h := get_delete m k p
  simp only [get, set, List.lookup_cons] at h ⊢
  by_cases hp : p = k
  · subst hp
    simp
  · have hpk : (p == k) = false := by simpa using hp
    simp only [hpk, h, hp, if_false]

theorem mem_keys_iff (m : TestCaseMap) (k : String) : k ∈ keys m ↔ get m k ≠ none := by
  induction m with
  | nil => simp [keys, get]
  | cons e m ih =>
    obtain ⟨a, v⟩ := e
    simp only [keys, get, List.map_cons, List.mem_cons, List.lookup_cons] at ih ⊢
    by_cases hk : k = a
    · subst hk
      simp
    · have hka : (k == a) = false := by simpa using hk
      simp [hk, hka, ih]

end TestCaseMap

/-! ## Lemmas: reading the event sequence -/

theorem afterLastRun_snoc (p : String) (es : List GoTestOutput) (e : GoTestOutput) :
    afterLastRun p (es ++ [e]) =
      if isRunOf p e = true then some [] else (afterLastRun p es).map (fun post => post ++ [e]) := by
  induction es with
  | nil =>
    by_cases h : isRunOf p e = true <;> simp [afterLastRun, h]
  | cons x xs ih =>
    rw [List.cons_append]
    simp only [afterLastRun]
    rw [ih]
    by_cases h : isRunOf p e = true
    · simp [h]
    · simp only [h, Bool.false_eq_true, if_false]
      cases hx : afterLastRun p xs with
      | some post => simp
      | none =>
        by_cases hr : isRunOf p x = true <;> simp [hr]

theorem afterLastRun_none (p : String) (es : List GoTestOutput) (h : afterLastRun p es = none) :
    ∀ x ∈ es, isRunOf p x = false := by
  induction es with
  | nil => simp
  | cons y ys ih =>
    simp only [afterLastRun] at h
    cases hy : afterLastRun p ys with
    | some q => simp [hy] at h
    | none =>
      rw [hy] at h
      by_cases hry : isRunOf p y = true
      · simp [hry] at h
      · intro x hx
        rcases List.mem_cons.mp hx with hxy | hxy
        · subst hxy
          simpa using hry
        · exact ih hy x hxy

theorem afterLastRun_spec (p : String) (es post : List GoTestOutput)
    (h : afterLastRun p es = some post) :
    ∃ pre r, es = pre ++ r :: post ∧ isRunOf p r = true ∧ ∀ x ∈ post, isRunOf p x = false := by
  induction es generalizing post with
  | nil => simp [afterLastRun] at h
  | cons e es ih =>
    simp only [afterLastRun] at h
    cases hx : afterLastRun p es with
    | some q =>
      rw [hx] at h
      simp only [Option.some.injEq] at h
      subst h
      obtain ⟨pre, r, h1, h2, h3⟩ := ih q hx
      exact ⟨e :: pre, r, by simp [h1], h2, h3⟩
    | none =>
      rw [hx] at h
      by_cases hr : isRunOf p e = true
      · simp only [hr, if_true, Option.some.injEq] at h
        subst h
        exact ⟨[], e, rfl, hr, afterLastRun_none p es hx⟩
      · simp [hr] at h

theorem string_join_snoc (l : List String) (s : String) :
    String.join (l ++ [s]) = String.join l ++ s := by
  simp [String.join, List.foldl_append]

theorem traceOf_nil (p : String) : traceOf p [] = "" := rfl

theorem traceOf_snoc (p : String) (es : List GoTestOutput) (e : GoTestOutput) :
    traceOf p (es ++ [e]) =
      if writesTrace p e = true then traceOf p es ++ e.Output else traceOf p es := by
  unfold traceOf
  by_cases h : writesTrace p e = true
  · simp only [List.filter_append, List.filter_cons, h, if_true, List.filter_nil, List.map_append,
      List.map_cons, List.map_nil, string_join_snoc]
  · simp [List.filter_append, List.filter_cons, h]

theorem lastVerdict_nil (p : String) : lastVerdict p [] = none := rfl

theorem lastVerdict_snoc (p : String) (es : List GoTestOutput) (e : GoTestOutput) :
    lastVerdict p (es ++ [e]) = if isVerdictOf p e = true then some e else lastVerdict p es := by
  unfold lastVerdict
  by_cases h : isVerdictOf p e = true
  · simp [List.filter_append, List.filter_cons, h]
  · simp [List.filter_append, List.filter_cons, h]

/-! ## Lemmas: the loop -/

theorem runLoop_append (st : LoopState) (es es' : List GoTestOutput) :
    runLoop st (es ++ es') = (runLoop st es).bind (fun st' => runLoop st' es') := by
  induction es generalizing st with
  | nil => simp [runLoop]
  | cons e es ih =>
    simp only [List.cons_append, runLoop]
    cases h : loopBody st e with
    | none => simp
    | some st' => simpa using ih st'

theorem runLoop_snoc (st : LoopState) (es : List GoTestOutput) (e : GoTestOutput) :
    runLoop st (es ++ [e]) = (runLoop st es).bind (fun st' => loopBody st' e) := by
  rw [runLoop_append]
  congr 1
  funext st'
  simp only [runLoop]
  cases loopBody st' e <;> rfl

/-- What an iteration can leave under a key `p`: the entry that was there, a fresh
entry, or the old entry with its trace extended and possibly its verdict set. -/
theorem loopBody_get_some (st st' : LoopState) (e : GoTestOutput) (p : String) (tc : GoTestCase)
    (h : loopBody st e = some st') (hp : st'.finalTestCases.get p = some tc) :
    (st.finalTestCases.get p = some tc ∧
        (containsSlash p = true → isRunOf p e = false ∧ writesTrace p e = false)) ∨
    (isRunOf p e = true ∧ containsSlash p = true ∧ tc = { Name := p }) ∨
    (e.Test = p ∧ e.Action = "output" ∧
        ∃ tc0, st.finalTestCases.get p = some tc0 ∧
          tc = { tc0 with StackTrace := tc0.StackTrace ++ e.Output }) ∨
    (isVerdictOf p e = true ∧
        ∃ tc0, st.finalTestCases.get p = some tc0 ∧
          tc = { tc0 with StackTrace := tc0.StackTrace ++ e.Output
                          Status := e.Action
                          Elapsed := e.Elapsed }) := by
  unfold loopBody at h
  split_ifs at h with h1 h2 h3 h4 h5
  · -- run
    simp only [Option.some.injEq] at h
    subst h
    simp only [TestCaseMap.get_set] at hp
    by_cases hpe : p = e.Test
    · subst hpe
      simp only [if_true, Option.some.injEq] at hp
      right; left
      exact ⟨by simp [isRunOf, h1.1], h1.2, hp.symm⟩
    · simp only [hpe, if_false] at hp
      left
      exact ⟨hp, fun _ => by simp [isRunOf, writesTrace, Ne.symm hpe]⟩
  · -- output
    cases hg : st.finalTestCases.get e.Test with
    | none => simp [hg] at h
    | some tc0 =>
      simp only [hg, Option.some.injEq] at h
      subst h
      simp only [TestCaseMap.get_set] at hp
      by_cases hpe : p = e.Test
      · subst hpe
        simp only [if_true, Option.some.injEq] at hp
        right; right; left
        exact ⟨rfl, h2.1, tc0, hg, hp.symm⟩
      · simp only [hpe, if_false] at hp
        left
        exact ⟨hp, fun _ => by simp [isRunOf, writesTrace, Ne.symm hpe]⟩
  · -- skip
    simp only [Option.some.injEq] at h
    subst h
    simp only [TestCaseMap.get_delete] at hp
    by_cases hpe : p = e.Test
    · simp [hpe] at hp
    · simp only [hpe, if_false] at hp
      left
      exact ⟨hp, fun _ => by simp [isRunOf, writesTrace, Ne.symm hpe]⟩
  · -- pass / fail on a path with a separator
    cases hg : st.finalTestCases.get e.Test with
    | none =>
      simp only [hg, Option.some.injEq] at h
      subst h
      left
      refine ⟨hp, fun _ => ?_⟩
      have hpe : e.Test ≠ p := by
        intro hpe
        rw [hpe] at hg
        rw [hg] at hp
        cases hp
      simp [isRunOf, writesTrace, hpe]
    | some tc0 =>
      simp only [hg] at h
      have hset : (st.finalTestCases.set e.Test
            { tc0 with StackTrace := tc0.StackTrace ++ e.Output
                       Status := e.Action
                       Elapsed := e.Elapsed }).get p = some tc := by
        split_ifs at h with hd
        · simp only [Option.some.injEq] at h
          subst h
          simp only [TestCaseMap.get_delete] at hp
          split_ifs at hp
          exact hp
        · simp only [Option.some.injEq] at h
          subst h
          exact hp
      rw [TestCaseMap.get_set] at hset
      by_cases hpe : p = e.Test
      · subst hpe
        simp only [if_true, Option.some.injEq] at hset
        right; right; right
        refine ⟨?_, tc0, hg, hset.symm⟩
        rcases h4.1 with ha | ha <;> simp [isVerdictOf, ha, passStatus, failStatus]
      · simp only [hpe, if_false] at hset
        left
        exact ⟨hset, fun _ => by simp [isRunOf, writesTrace, Ne.symm hpe]⟩
  · -- timeout marker
    simp only [Option.some.injEq] at h
    subst h
    left
    refine ⟨hp, fun hs => ?_⟩
    have hpe : e.Test ≠ p := by
      intro hpe
      rw [← hpe, h5.2] at hs
      simp [containsSlash] at hs
    simp [isRunOf, writesTrace, hpe]
  · -- no rule applies
    simp only [Option.some.injEq] at h
    subst h
    left
    refine ⟨hp, fun hs => ?_⟩
    by_cases hpe : e.Test = p
    · subst hpe
      have ha1 : e.Action ≠ "run" := fun ha => h1 ⟨ha, hs⟩
      have ha2 : e.Action ≠ "output" := fun ha => h2 ⟨ha, hs⟩
      have ha3 : e.Action ≠ failStatus := fun ha => h4 ⟨Or.inl ha, hs⟩
      have ha4 : e.Action ≠ passStatus := fun ha => h4 ⟨Or.inr ha, hs⟩
      simp [isRunOf, writesTrace, ha1, ha2, ha3, ha4]
    · simp [isRunOf, writesTrace, hpe]

theorem isVerdictOf_writesTrace (p : String) (e : GoTestOutput) (h : isVerdictOf p e = true) :
    writesTrace p e = true := by
  simp only [isVerdictOf, Bool.and_eq_true, Bool.or_eq_true, beq_iff_eq] at h
  simp only [writesTrace, Bool.and_eq_true, Bool.or_eq_true, beq_iff_eq]
  rcases h with ⟨h1, h2 | h2⟩
  · exact ⟨h1, Or.inl (Or.inr h2)⟩
  · exact ⟨h1, Or.inr h2⟩

theorem isVerdictOf_false_of_writesTrace_false (p : String) (e : GoTestOutput)
    (h : writesTrace p e = false) : isVerdictOf p e = false := by
  cases hv : isVerdictOf p e with
  | false => rfl
  | true => rw [isVerdictOf_writesTrace p e hv] at h; cases h

theorem isVerdictOf_not_isRunOf (p : String) (e : GoTestOutput) (h : isVerdictOf p e = true) :
    isRunOf p e = false := by
  simp only [isVerdictOf, Bool.and_eq_true, Bool.or_eq_true, beq_iff_eq] at h
  rcases h with ⟨_, h2 | h2⟩ <;> simp [isRunOf, h2, passStatus, failStatus]

/-- The loop invariant: every entry of the map is described by the events that
follow the last `run` event of its key. -/
theorem runLoop_entryInv (es : List GoTestOutput) (st : LoopState)
    (h : runLoop initState es = some st) (p : String) (tc : GoTestCase)
    (hp : st.finalTestCases.get p = some tc) : EntryInv es p tc := by
  induction es using List.reverseRecOn generalizing st p tc with
  | nil =>
    simp only [runLoop, Option.some.injEq] at h
    subst h
    simp [initState, TestCaseMap.get] at hp
  | append_singleton es e ih =>
    rw [runLoop_snoc] at h
    cases hst : runLoop initState es with
    | none => simp [hst] at h
    | some st0 =>
      simp only [hst, Option.some_bind] at h
      rcases loopBody_get_some st0 st e p tc h hp with
        ⟨h0, hno⟩ | ⟨hr, hs, htc⟩ | ⟨ht, ha, tc0, h0, htc⟩ | ⟨hv, tc0, h0, htc⟩
      · obtain ⟨i1, i2, i3, post, i4, i5, i6, i7⟩ := ih st0 hst p tc h0
        obtain ⟨n1, n2⟩ := hno i2
        refine ⟨i1, i2, i3, post ++ [e], ?_, ?_, ?_, ?_⟩
        · simp [afterLastRun_snoc, n1, i4]
        · simp [traceOf_snoc, n2, i5]
        · simp [lastVerdict_snoc, isVerdictOf_false_of_writesTrace_false p e n2, i6]
        · simp [lastVerdict_snoc, isVerdictOf_false_of_writesTrace_false p e n2, i7]
      · subst htc
        refine ⟨rfl, hs, rfl, [], ?_, ?_, ?_, ?_⟩
        · simp [afterLastRun_snoc, hr]
        · simp [traceOf_nil]
        · simp [lastVerdict_nil]
        · simp [lastVerdict_nil]
      · obtain ⟨i1, i2, i3, post, i4, i5, i6, i7⟩ := ih st0 hst p tc0 h0
        have n1 : isRunOf p e = false := by simp [isRunOf, ha]
        have n2 : writesTrace p e = true := by simp [writesTrace, ha, ht]
        have n3 : isVerdictOf p e = false := by simp [isVerdictOf, ha, passStatus, failStatus]
        subst htc
        refine ⟨i1, i2, i3, post ++ [e], ?_, ?_, ?_, ?_⟩
        · simp [afterLastRun_snoc, n1, i4]
        · simp [traceOf_snoc, n2, i5]
        · simp [lastVerdict_snoc, n3, i6]
        · simp [lastVerdict_snoc, n3, i7]
      · obtain ⟨i1, i2, i3, post, i4, i5, i6, i7⟩ := ih st0 hst p tc0 h0
        have n1 : isRunOf p e = false := isVerdictOf_not_isRunOf p e hv
        have n2 : writesTrace p e = true := isVerdictOf_writesTrace p e hv
        subst htc
        refine ⟨i1, i2, i3, post ++ [e], ?_, ?_, ?_, ?_⟩
        · simp [afterLastRun_snoc, n1, i4]
        · simp [traceOf_snoc, n2, i5]
        · simp [lastVerdict_snoc, hv]
        · simp [lastVerdict_snoc, hv]

theorem loopBody_timeoutFailure (st st' : LoopState) (e : GoTestOutput)
    (h : loopBody st e = some st') :
    st'.timeoutFailure = (st.timeoutFailure || isTimeout e) := by
  unfold loopBody at h
  split_ifs at h with h1 h2 h3 h4 h5
  · simp only [Option.some.injEq] at h
    subst h
    simp [isTimeout, h1.1, failStatus]
  · cases hg : st.finalTestCases.get e.Test with
    | none => simp [hg] at h
    | some tc0 =>
      simp only [hg, Option.some.injEq] at h
      subst h
      simp [isTimeout, h2.1, failStatus]
  · simp only [Option.some.injEq] at h
    subst h
    simp [isTimeout, h3, failStatus, skipStatus]
  · have hne : isTimeout e = false := by
      simp only [isTimeout, Bool.and_eq_false_imp, beq_iff_eq]
      intro _
      simp only [beq_eq_false_iff_ne, ne_eq]
      intro hE
      have := h4.2
      rw [hE] at this
      simp [containsSlash] at this
    cases hg : st.finalTestCases.get e.Test with
    | none =>
      simp only [hg, Option.some.injEq] at h
      subst h
      simp [hne]
    | some tc0 =>
      simp only [hg] at h
      split_ifs at h <;>
      · simp only [Option.some.injEq] at h
        subst h
        simp [hne]
  · simp only [Option.some.injEq] at h
    subst h
    simp [isTimeout, h5.1, h5.2]
  · simp only [Option.some.injEq] at h
    subst h
    have hne : isTimeout e = false := by
      simp only [isTimeout, Bool.and_eq_false_imp, beq_iff_eq]
      intro ha
      simp only [beq_eq_false_iff_ne, ne_eq]
      exact fun hE => h5 ⟨ha, hE⟩
    simp [hne]

theorem runLoop_timeoutFailure (es : List GoTestOutput) (st0 st : LoopState)
    (h : runLoop st0 es = some st) :
    st.timeoutFailure = (st0.timeoutFailure || es.any isTimeout) := by
  induction es generalizing st0 with
  | nil =>
    simp only [runLoop, Option.some.injEq] at h
    subst h
    simp
  | cons e es ih =>
    simp only [runLoop] at h
    cases hb : loopBody st0 e with
    | none => simp [hb] at h
    | some st1 =>
      simp only [hb] at h
      rw [ih st1 h, loopBody_timeoutFailure st0 st1 e hb]
      simp [Bool.or_assoc]

theorem lastVerdict_isVerdictOf (p : String) (es : List GoTestOutput) (v : GoTestOutput)
    (h : lastVerdict p es = some v) : isVerdictOf p v = true := by
  have hm := List.mem_of_getLast?_eq_some h
  exact (List.mem_filter.mp hm).2

theorem isVerdictOf_action_ne_empty (p : String) (v : GoTestOutput)
    (h : isVerdictOf p v = true) : v.Action ≠ "" := by
  simp only [isVerdictOf, Bool.and_eq_true, Bool.or_eq_true, beq_iff_eq] at h
  rcases h with ⟨_, h2 | h2⟩ <;> simp [h2, passStatus, failStatus]

/-! ## Lemmas: the second loop -/

theorem get_finalizeAll (tf : Bool) (m : TestCaseMap) (k : String) :
    (finalizeAll tf m).get k = (m.get k).map (finalizeTestCase tf) := by
  induction m with
  | nil => simp [finalizeAll, TestCaseMap.get]
  | cons e m ih =>
    obtain ⟨a, v⟩ := e
    simp only [finalizeAll, TestCaseMap.get, List.map_cons, List.lookup_cons] at ih ⊢
    cases hka : (k == a) with
    | true => simp
    | false => simpa using ih

theorem parseCorrectTestCases_eq_some (es : List GoTestOutput) (m : TestCaseMap)
    (h : parseCorrectTestCases es = some m) :
    ∃ st, runLoop initState es = some st ∧
      m = finalizeAll st.timeoutFailure st.finalTestCases := by
  unfold parseCorrectTestCases at h
  cases hst : runLoop initState es with
  | none => simp [hst] at h
  | some st =>
    simp only [hst, Option.some.injEq] at h
    exact ⟨st, rfl, h.symm⟩

/-- The result of `parseCorrectTestCases`, entry by entry: the entry the first loop
left under the key, rewritten by the second loop. -/
theorem parseCorrectTestCases_get (es : List GoTestOutput) (m : TestCaseMap)
    (h : parseCorrectTestCases es = some m) (p : String) (tc : GoTestCase)
    (hp : m.get p = some tc) :
    ∃ st tc0, runLoop initState es = some st ∧ st.finalTestCases.get p = some tc0 ∧
      tc = finalizeTestCase st.timeoutFailure tc0 := by
  unfold parseCorrectTestCases at h
  cases hst : runLoop initState es with
  | none => simp [hst] at h
  | some st =>
    simp only [hst, Option.some.injEq] at h
    subst h
    rw [get_finalizeAll] at hp
    cases h0 : st.finalTestCases.get p with
    | none => simp [h0] at hp
    | some tc0 =>
      simp only [h0, Option.map_some', Option.some.injEq] at hp
      exact ⟨st, tc0, rfl, h0, hp.symm⟩

/-! ## Lemmas: splitting and joining -/

theorem splitOnSlash_ne_nil (s : List Char) : splitOnSlash s ≠ [] := by
  cases s with
  | nil => simp [splitOnSlash]
  | cons c cs =>
    simp only [splitOnSlash]
    split_ifs
    · simp
    · split <;> simp

theorem stringsSplit_ne_nil (s : String) : stringsSplit s ≠ [] := by
  simp [stringsSplit, splitOnSlash_ne_nil]

theorem stringsJoin_cons_char (c : Char) (seg : List Char) (rest : List String) :
    stringsJoin (String.mk (c :: seg) :: rest) =
      String.mk [c] ++ stringsJoin (String.mk seg :: rest) := by
  cases rest with
  | nil =>
    simp only [stringsJoin]
    apply String.ext
    simp
  | cons t rest =>
    simp only [stringsJoin]
    apply String.ext
    simp

theorem stringsJoin_splitOnSlash (s : List Char) :
    stringsJoin ((splitOnSlash s).map String.mk) = String.mk s := by
  induction s with
  | nil => simp [splitOnSlash, stringsJoin]
  | cons c cs ih =>
    simp only [splitOnSlash]
    split_ifs with hc
    · subst hc
      cases hsp : splitOnSlash cs with
      | nil => exact absurd hsp (splitOnSlash_ne_nil cs)
      | cons seg rest =>
        rw [hsp] at ih
        simp only [List.map_cons, stringsJoin] at ih ⊢
        rw [ih]
        apply String.ext
        simp
    · cases hsp : splitOnSlash cs with
      | nil => exact absurd hsp (splitOnSlash_ne_nil cs)
      | cons seg rest =>
        rw [hsp] at ih
        simp only [List.map_cons] at ih ⊢
        rw [stringsJoin_cons_char, ih]
        apply String.ext
        simp

/-- Joining what `strings.Split` returns gives the string back. -/
theorem stringsJoin_stringsSplit (s : String) : stringsJoin (stringsSplit s) = s := by
  unfold stringsSplit
  rw [stringsJoin_splitOnSlash]

theorem take_append_getD_last (l : List String) (d : String) (h : l ≠ []) :
    l.take (l.length - 1) ++ [l.getD (l.length - 1) d] = l := by
  induction l using List.reverseRecOn with
  | nil => exact absurd rfl h
  | append_singleton xs a _ =>
    simp [List.getD_eq_getElem?_getD]

/-! ## Lemmas: the regular expressions -/

theorem matchSubTestAt_ne_nil (s m : List Char) (h : matchSubTestAt s = some m) : m ≠ [] := by
  unfold matchSubTestAt at h
  simp only at h
  split_ifs at h with h1
  split at h
  · split_ifs at h with h2
    simp only [Option.some.injEq] at h
    subst h
    intro hcon
    have := congrArg List.length hcon
    simp at this
  · cases h

theorem findSubTest_ne_nil (s m : List Char) (h : findSubTest s = some m) : m ≠ [] := by
  induction s with
  | nil => simp [findSubTest] at h
  | cons c cs ih =>
    simp only [findSubTest] at h
    cases hm : matchSubTestAt (c :: cs) with
    | some m1 =>
      simp only [hm, Option.some.injEq] at h
      subst h
      exact matchSubTestAt_ne_nil _ _ hm
    | none =>
      simp only [hm] at h
      exact ih h

theorem matchSubTestAt_isSome_of_multi (s : List Char) (h : matchMultiSubTestAt s = true) :
    ∃ m, matchSubTestAt s = some m := by
  unfold matchMultiSubTestAt at h
  unfold matchSubTestAt
  simp only [Bool.and_eq_true, Bool.not_eq_true'] at h
  obtain ⟨h1, h2⟩ := h
  simp only [h1, Bool.false_eq_true, if_false]
  split at h2
  · rename_i r heq
    simp only [Bool.and_eq_true, Bool.not_eq_true'] at h2
    simp [h2.1]
  · cases h2

theorem findSubTest_isSome_of_multi (s : List Char) (h : existsMultiSubTest s = true) :
    ∃ m, findSubTest s = some m := by
  induction s with
  | nil => simp [existsMultiSubTest] at h
  | cons c cs ih =>
    simp only [findSubTest]
    cases hm : matchSubTestAt (c :: cs) with
    | some m1 => exact ⟨m1, rfl⟩
    | none =>
      simp only [existsMultiSubTest, Bool.or_eq_true] at h
      rcases h with h | h
      · obtain ⟨m, hm2⟩ := matchSubTestAt_isSome_of_multi _ h
        rw [hm] at hm2
        cases hm2
      · exact ih h

/-- A name that matches `multiSubTestReg` has a non-empty `subTestReg` match. -/
theorem subTestRegFindString_ne_empty (s : String) (h : multiSubTestRegMatchString s = true) :
    subTestRegFindString s ≠ "" := by
  obtain ⟨m, hm⟩ := findSubTest_isSome_of_multi s.data h
  unfold subTestRegFindString
  rw [hm]
  intro hcon
  have : m = [] := by
    have := congrArg String.data hcon
    simpa using this
  exact findSubTest_ne_nil _ _ hm this

/-! ## Lemmas: the regular expressions on paths of word segments -/

theorem isWordChar_slash : isWordChar '/' = false := by decide

theorem splitOnSlash_cons_inv (s a : List Char) (t : List (List Char))
    (h : splitOnSlash s = a :: t) :
    (t = [] ∧ s = a) ∨ (∃ s2, s = a ++ '/' :: s2 ∧ splitOnSlash s2 = t) := by
  induction s generalizing a t with
  | nil =>
    simp only [splitOnSlash, List.cons.injEq] at h
    exact Or.inl ⟨h.2.symm, h.1⟩
  | cons c cs ih =>
    simp only [splitOnSlash] at h
    split_ifs at h with hc
    · simp only [List.cons.injEq] at h
      subst hc
      exact Or.inr ⟨cs, by simp [← h.1], h.2⟩
    · cases hsp : splitOnSlash cs with
      | nil => exact absurd hsp (splitOnSlash_ne_nil cs)
      | cons seg rest =>
        rw [hsp] at h
        simp only [List.cons.injEq] at h
        obtain ⟨h1, h2⟩ := h
        subst h1 h2
        rcases ih seg rest hsp with ⟨e1, e2⟩ | ⟨s2, e1, e2⟩
        · exact Or.inl ⟨e1, by rw [e2]⟩
        · exact Or.inr ⟨s2, by rw [e1]; rfl, e2⟩

/-- The run of word characters at the head of `s` is the first segment of `s` when that
segment consists of word characters, and what follows is the end of `s` or a
separator and the remaining segments. -/
theorem takeWhile_word_segment (s b : List Char) (rest : List (List Char))
    (h : splitOnSlash s = b :: rest) (hb : ∀ c ∈ b, isWordChar c = true) :
    s.takeWhile isWordChar = b ∧
      ((rest = [] ∧ s.dropWhile isWordChar = []) ∨
        ∃ s2, s.dropWhile isWordChar = '/' :: s2 ∧ splitOnSlash s2 = rest) := by
  rcases splitOnSlash_cons_inv s b rest h with ⟨e1, e2⟩ | ⟨s2, e1, e2⟩
  · subst e2
    refine ⟨List.takeWhile_eq_self_iff.mpr hb, Or.inl ⟨e1, List.dropWhile_eq_nil_iff.mpr hb⟩⟩
  · subst e1
    refine ⟨?_, Or.inr ⟨s2, ?_, e2⟩⟩
    · rw [List.takeWhile_append_of_pos hb]
      simp [List.takeWhile_cons, isWordChar_slash]
    · rw [List.dropWhile_append_of_pos hb]
      simp [List.dropWhile_cons, isWordChar_slash]

theorem matchSubTestAt_two_words (s a b : List Char) (rest : List (List Char))
    (h : splitOnSlash s = a :: b :: rest)
    (ha : ∀ c ∈ a, isWordChar c = true) (hane : a ≠ [])
    (hb : ∀ c ∈ b, isWordChar c = true) (hbne : b ≠ []) :
    matchSubTestAt s = some (a ++ '/' :: b) := by
  obtain ⟨t1, d1⟩ := takeWhile_word_segment s a (b :: rest) h ha
  rcases d1 with ⟨e1, _⟩ | ⟨s2, d1, h2⟩
  · cases e1
  · obtain ⟨t2, _⟩ := takeWhile_word_segment s2 b rest h2 hb
    unfold matchSubTestAt
    simp only [t1, d1, t2]
    simp [hane, hbne]

theorem findSubTest_two_words (s a b : List Char) (rest : List (List Char))
    (h : splitOnSlash s = a :: b :: rest)
    (ha : ∀ c ∈ a, isWordChar c = true) (hane : a ≠ [])
    (hb : ∀ c ∈ b, isWordChar c = true) (hbne : b ≠ []) :
    findSubTest s = some (a ++ '/' :: b) := by
  have hm := matchSubTestAt_two_words s a b rest h ha hane hb hbne
  cases s with
  | nil =>
    simp only [splitOnSlash, List.cons.injEq] at h
    exact absurd h.1.symm hane
  | cons c cs =>
    simp only [findSubTest, hm]

theorem existsMultiSubTest_three_words (s a b c : List Char) (rest : List (List Char))
    (h : splitOnSlash s = a :: b :: c :: rest)
    (ha : ∀ x ∈ a, isWordChar x = true) (hane : a ≠ [])
    (hb : ∀ x ∈ b, isWordChar x = true) (hbne : b ≠ [])
    (hc : ∀ x ∈ c, isWordChar x = true) (hcne : c ≠ []) :
    existsMultiSubTest s = true := by
  obtain ⟨t1, d1⟩ := takeWhile_word_segment s a (b :: c :: rest) h ha
  rcases d1 with ⟨e1, _⟩ | ⟨s2, d1, h2⟩
  · cases e1
  · obtain ⟨t2, d2⟩ := takeWhile_word_segment s2 b (c :: rest) h2 hb
    rcases d2 with ⟨e2, _⟩ | ⟨s3, d2, h3⟩
    · cases e2
    · obtain ⟨t3, _⟩ := takeWhile_word_segment s3 c rest h3 hc
      have hs3 : ∃ x xs, s3 = x :: xs ∧ isWordChar x = true := by
        cases s3 with
        | nil =>
          simp only [List.takeWhile_nil] at t3
          exact absurd t3.symm hcne
        | cons x xs =>
          refine ⟨x, xs, rfl, ?_⟩
          by_contra hx
          simp only [List.takeWhile_cons, hx, if_false] at t3
          exact hcne t3.symm
      obtain ⟨x, xs, hs3e, hx⟩ := hs3
      subst hs3e
      have hmulti : matchMultiSubTestAt s = true := by
        unfold matchMultiSubTestAt
        simp only [t1, d1, t2, d2]
        simp [hane, hbne, hx]
      cases s with
      | nil =>
        simp only [splitOnSlash, List.cons.injEq] at h
        exact absurd h.1.symm hane
      | cons y ys =>
        simp only [existsMultiSubTest, hmulti, Bool.true_or]

theorem splitOnSlash_of_stringsSplit (p a : String) (rest : List String)
    (h : stringsSplit p = a :: rest) :
    ∃ rest0, splitOnSlash p.data = a.data :: rest0 ∧ rest0.map String.mk = rest := by
  unfold stringsSplit at h
  cases hsp : splitOnSlash p.data with
  | nil => exact absurd hsp (splitOnSlash_ne_nil _)
  | cons x xs =>
    rw [hsp] at h
    simp only [List.map_cons, List.cons.injEq] at h
    refine ⟨xs, ?_, h.2⟩
    rw [← h.1]

theorem data_ne_nil (a : String) (h : a ≠ "") : a.data ≠ [] := by
  intro hcon
  apply h
  apply String.ext
  simpa using hcon

/-- On a path whose first two segments are non-empty words, `subTestReg.FindString`
returns those two segments joined by the separator. -/
theorem subTestRegFindString_two_words (p a b : String) (rest : List String)
    (h : stringsSplit p = a :: b :: rest)
    (ha : ∀ c ∈ a.data, isWordChar c = true) (hane : a ≠ "")
    (hb : ∀ c ∈ b.data, isWordChar c = true) (hbne : b ≠ "") :
    subTestRegFindString p = a ++ "/" ++ b := by
  obtain ⟨r0, h0, hr0⟩ := splitOnSlash_of_stringsSplit p a (b :: rest) h
  cases r0 with
  | nil => simp at hr0
  | cons x xs =>
    simp only [List.map_cons, List.cons.injEq] at hr0
    have hx : x = b.data := by rw [← hr0.1]
    subst hx
    unfold subTestRegFindString
    rw [findSubTest_two_words p.data a.data b.data xs h0 ha (data_ne_nil a hane) hb
      (data_ne_nil b hbne)]
    apply String.ext
    simp

/-- A path whose first three segments are non-empty words matches `multiSubTestReg`. -/
theorem multiSubTestRegMatchString_three_words (p a b c : String) (rest : List String)
    (h : stringsSplit p = a :: b :: c :: rest)
    (ha : ∀ x ∈ a.data, isWordChar x = true) (hane : a ≠ "")
    (hb : ∀ x ∈ b.data, isWordChar x = true) (hbne : b ≠ "")
    (hc : ∀ x ∈ c.data, isWordChar x = true) (hcne : c ≠ "") :
    multiSubTestRegMatchString p = true := by
  obtain ⟨r0, h0, hr0⟩ := splitOnSlash_of_stringsSplit p a (b :: c :: rest) h
  cases r0 with
  | nil => simp at hr0
  | cons x xs =>
    cases xs with
    | nil => simp at hr0
    | cons y ys =>
      simp only [List.map_cons, List.cons.injEq] at hr0
      have hx : x = b.data := by rw [← hr0.1]
      have hy : y = c.data := by rw [← hr0.2.1]
      subst hx hy
      exact existsMultiSubTest_three_words p.data a.data b.data c.data ys h0 ha
        (data_ne_nil a hane) hb (data_ne_nil b hbne) hc (data_ne_nil c hcne)

theorem loopBody_deletions (st st' : LoopState) (e : GoTestOutput)
    (h : loopBody st e = some st') :
    (st'.deletedTest = st.deletedTest ∧ st'.deletions = st.deletions) ∨
    (∃ d, d ≠ st.deletedTest ∧ st'.deletedTest = d ∧ st'.deletions = st.deletions ++ [d]) := by
  unfold loopBody at h
  split_ifs at h with h1 h2 h3 h4 h5
  · simp only [Option.some.injEq] at h
    subst h
    exact Or.inl ⟨rfl, rfl⟩
  · cases hg : st.finalTestCases.get e.Test with
    | none => simp [hg] at h
    | some tc0 =>
      simp only [hg, Option.some.injEq] at h
      subst h
      exact Or.inl ⟨rfl, rfl⟩
  · simp only [Option.some.injEq] at h
    subst h
    exact Or.inl ⟨rfl, rfl⟩
  · cases hg : st.finalTestCases.get e.Test with
    | none =>
      simp only [hg, Option.some.injEq] at h
      subst h
      exact Or.inl ⟨rfl, rfl⟩
    | some tc0 =>
      simp only [hg] at h
      split_ifs at h with hd
      · simp only [Option.some.injEq] at h
        subst h
        exact Or.inr ⟨_, hd.2, rfl, rfl⟩
      · simp only [Option.some.injEq] at h
        subst h
        exact Or.inl ⟨rfl, rfl⟩
  · simp only [Option.some.injEq] at h
    subst h
    exact Or.inl ⟨rfl, rfl⟩
  · simp only [Option.some.injEq] at h
    subst h
    exact Or.inl ⟨rfl, rfl⟩

theorem loopBody_deletionInv (st st' : LoopState) (e : GoTestOutput)
    (h : loopBody st e = some st') (hi : DeletionInv st) : DeletionInv st' := by
  rcases loopBody_deletions st st' e h with ⟨h1, h2⟩ | ⟨d, hd, h1, h2⟩
  · unfold DeletionInv
    rw [h1, h2]
    exact hi
  · unfold DeletionInv
    rw [h1, h2]
    refine ⟨by simp, ?_⟩
    rw [List.chain'_append]
    refine ⟨hi.2, List.chain'_singleton d, ?_⟩
    intro x hx y hy
    simp only [List.head?_cons, Option.mem_def, Option.some.injEq] at hy
    subst hy
    have hx2 : st.deletions.getLast? = some x := hx
    have := hi.1
    rw [hx2] at this
    simp only [Option.getD_some] at this
    rw [← this]
    exact fun hcon => hd hcon.symm

theorem runLoop_deletionInv (es : List GoTestOutput) (st st' : LoopState)
    (h : runLoop st es = some st') (hi : DeletionInv st) : DeletionInv st' := by
  induction es generalizing st with
  | nil =>
    simp only [runLoop, Option.some.injEq] at h
    subst h
    exact hi
  | cons e es ih =>
    simp only [runLoop] at h
    cases hb : loopBody st e with
    | none => simp [hb] at h
    | some st1 =>
      simp only [hb] at h
      exact ih st1 h (loopBody_deletionInv st st1 e hb hi)

theorem initState_deletionInv : DeletionInv initState := by
  simp [DeletionInv, initState]

theorem runLoop_deletions_mono (es : List GoTestOutput) (st st' : LoopState)
    (h : runLoop st es = some st') : ∀ q ∈ st.deletions, q ∈ st'.deletions := by
  induction es generalizing st with
  | nil =>
    simp only [runLoop, Option.some.injEq] at h
    subst h
    exact fun q hq => hq
  | cons e es ih =>
    simp only [runLoop] at h
    cases hb : loopBody st e with
    | none => simp [hb] at h
    | some st1 =>
      simp only [hb] at h
      intro q hq
      apply ih st1 h
      rcases loopBody_deletions st st1 e hb with ⟨_, h2⟩ | ⟨d, _, _, h2⟩
      · rw [h2]; exact hq
      · rw [h2]; exact List.mem_append_left _ hq

/-- What a `pass` or `fail` event does when its path has an entry: the entry keyed
by the `subTestReg` match of the entry's name is removed, and the removal recorded,
when the name matches `multiSubTestReg` and that key differs from `deletedTest`. -/
theorem loopBody_verdict (st : LoopState) (e : GoTestOutput) (tc0 : GoTestCase)
    (ha : e.Action = failStatus ∨ e.Action = passStatus) (hs : containsSlash e.Test = true)
    (hg : st.finalTestCases.get e.Test = some tc0) :
    loopBody st e =
      if multiSubTestRegMatchString tc0.Name = true ∧
          subTestRegFindString tc0.Name ≠ st.deletedTest then
        some { st with
          finalTestCases := (st.finalTestCases.set e.Test
            { tc0 with StackTrace := tc0.StackTrace ++ e.Output
                       Status := e.Action
                       Elapsed := e.Elapsed }).delete (subTestRegFindString tc0.Name)
          deletedTest := subTestRegFindString tc0.Name
          deletions := st.deletions ++ [subTestRegFindString tc0.Name] }
      else
        some { st with
          finalTestCases := st.finalTestCases.set e.Test
            { tc0 with StackTrace := tc0.StackTrace ++ e.Output
                       Status := e.Action
                       Elapsed := e.Elapsed } } := by
  unfold loopBody
  have h1 : ¬ (e.Action = "run" ∧ containsSlash e.Test = true) := by
    rcases ha with ha | ha <;> (rw [ha]; simp [failStatus, passStatus])
  have h2 : ¬ (e.Action = "output" ∧ containsSlash e.Test = true) := by
    rcases ha with ha | ha <;> (rw [ha]; simp [failStatus, passStatus])
  have h3 : ¬ (e.Action = skipStatus) := by
    rcases ha with ha | ha <;> (rw [ha]; simp [failStatus, passStatus, skipStatus])
  rw [if_neg h1, if_neg h2, if_neg h3, if_pos ⟨ha, hs⟩, hg]

/-- An iteration extends the history of parent deletions only when it is a `pass` or
`fail` event on a path with an entry whose name matches `multiSubTestReg` and whose
`subTestReg` match differs from `deletedTest`. -/
theorem loopBody_deletions_change (st st' : LoopState) (e : GoTestOutput)
    (h : loopBody st e = some st') (hchg : st'.deletions ≠ st.deletions) :
    (e.Action = failStatus ∨ e.Action = passStatus) ∧ containsSlash e.Test = true ∧
      ∃ tc0, st.finalTestCases.get e.Test = some tc0 ∧
        multiSubTestRegMatchString tc0.Name = true ∧
        subTestRegFindString tc0.Name ≠ st.deletedTest := by
  unfold loopBody at h
  split_ifs at h with h1 h2 h3 h4 h5
  · simp only [Option.some.injEq] at h
    subst h
    exact absurd rfl hchg
  · cases hg : st.finalTestCases.get e.Test with
    | none => simp [hg] at h
    | some tc0 =>
      simp only [hg, Option.some.injEq] at h
      subst h
      exact absurd rfl hchg
  · simp only [Option.some.injEq] at h
    subst h
    exact absurd rfl hchg
  · cases hg : st.finalTestCases.get e.Test with
    | none =>
      simp only [hg, Option.some.injEq] at h
      subst h
      exact absurd rfl hchg
    | some tc0 =>
      simp only [hg] at h
      split_ifs at h with hd
      · exact ⟨h4.1, h4.2, tc0, rfl, hd.1, hd.2⟩
      · simp only [Option.some.injEq] at h
        subst h
        exact absurd rfl hchg
  · simp only [Option.some.injEq] at h
    subst h
    exact absurd rfl hchg
  · simp only [Option.some.injEq] at h
    subst h
    exact absurd rfl hchg

theorem runLoop_split (pre post : List GoTestOutput) (e : GoTestOutput) (st0 st : LoopState)
    (h : runLoop initState (pre ++ e :: post) = some st)
    (hpre : runLoop initState pre = some st0) :
    ∃ st1, loopBody st0 e = some st1 ∧ runLoop st1 post = some st := by
  rw [runLoop_append, hpre] at h
  simp only [Option.some_bind, runLoop] at h
  cases hb : loopBody st0 e with
  | none => simp [hb] at h
  | some st1 =>
    simp only [hb] at h
    exact ⟨st1, rfl, h⟩

/-- Right after a `pass` or `fail` event has finalized a tracked path that matches
`multiSubTestReg`, the `subTestReg` match of that path is in the history of parent
deletions: the event executed the deletion, or the most recent execution had that
key. -/
theorem verdict_key_mem_deletions (pre : List GoTestOutput) (st0 st1 : LoopState)
    (e : GoTestOutput) (hpre : runLoop initState pre = some st0)
    (ha : e.Action = failStatus ∨ e.Action = passStatus) (hs : containsSlash e.Test = true)
    (hg : st0.finalTestCases.get e.Test ≠ none)
    (hmulti : multiSubTestRegMatchString e.Test = true)
    (hb : loopBody st0 e = some st1) : subTestRegFindString e.Test ∈ st1.deletions := by
  cases hg0 : st0.finalTestCases.get e.Test with
  | none => exact absurd hg0 hg
  | some tc0 =>
    have hname : tc0.Name = e.Test := (runLoop_entryInv pre st0 hpre e.Test tc0 hg0).1
    have hinv0 := runLoop_deletionInv pre initState st0 hpre initState_deletionInv
    rw [loopBody_verdict st0 e tc0 ha hs hg0, hname] at hb
    split_ifs at hb with hd
    · simp only [Option.some.injEq] at hb
      subst hb
      simp
    · simp only [Option.some.injEq] at hb
      subst hb
      have heq : subTestRegFindString e.Test = st0.deletedTest := by
        by_contra hne
        exact hd ⟨hmulti, hne⟩
      have hne := subTestRegFindString_ne_empty e.Test hmulti
      show subTestRegFindString e.Test ∈ st0.deletions
      rw [heq, hinv0.1] at hne ⊢
      cases hl : st0.deletions.getLast? with
      | none => simp [hl] at hne
      | some x =>
        simp only [Option.getD_some]
        exact List.mem_of_getLast?_eq_some hl

/-! ## Lemmas: absent keys -/

theorem loopBody_get_none (st st' : LoopState) (e : GoTestOutput) (p : String)
    (h : loopBody st e = some st') (h0 : st.finalTestCases.get p = none)
    (hr : ¬ (e.Action = "run" ∧ e.Test = p)) : st'.finalTestCases.get p = none := by
  cases hp : st'.finalTestCases.get p with
  | none => rfl
  | some tc =>
    rcases loopBody_get_some st st' e p tc h hp with
      ⟨h1, _⟩ | ⟨h1, _, _⟩ | ⟨_, _, tc0, h1, _⟩ | ⟨_, tc0, h1, _⟩
    · rw [h0] at h1; cases h1
    · simp only [isRunOf, Bool.and_eq_true, beq_iff_eq] at h1
      exact absurd h1 hr
    · rw [h0] at h1; cases h1
    · rw [h0] at h1; cases h1

theorem runLoop_get_none (es : List GoTestOutput) (st st' : LoopState) (p : String)
    (h : runLoop st es = some st') (h0 : st.finalTestCases.get p = none)
    (hr : ∀ x ∈ es, ¬ (x.Action = "run" ∧ x.Test = p)) : st'.finalTestCases.get p = none := by
  induction es generalizing st with
  | nil =>
    simp only [runLoop, Option.some.injEq] at h
    subst h
    exact h0
  | cons e es ih =>
    simp only [runLoop] at h
    cases hb : loopBody st e with
    | none => simp [hb] at h
    | some st1 =>
      simp only [hb] at h
      exact ih st1 h (loopBody_get_none st st1 e p hb h0 (hr e (List.mem_cons_self e es)))
        (fun x hx => hr x (List.mem_cons_of_mem e hx))

theorem loopBody_skip (st : LoopState) (e : GoTestOutput) (h : e.Action = skipStatus) :
    loopBody st e = some { st with finalTestCases := st.finalTestCases.delete e.Test } := by
  unfold loopBody
  have h1 : ¬ (e.Action = "run" ∧ containsSlash e.Test = true) := by
    rw [h]; simp [skipStatus]
  have h2 : ¬ (e.Action = "output" ∧ containsSlash e.Test = true) := by
    rw [h]; simp [skipStatus]
  rw [if_neg h1, if_neg h2, if_pos h]

/-! ## Lemmas: the retry loop -/

theorem pollCondition_of_nil (r : AttemptResult) (h : r.err = none) :
    pollCondition r = (true, none) := by
  simp [pollCondition, h]

theorem pollCondition_of_rateLimited (r : AttemptResult) (h : isRateLimited r) :
    pollCondition r = (false, none) := by
  obtain ⟨h1, h2⟩ := h
  cases he : r.err with
  | none => exact absurd he h1
  | some e => simp [pollCondition, he, h2]

theorem pollCondition_of_other (r : AttemptResult) (e : String) (h : r.err = some e)
    (hs : r.statusCode ≠ statusTooManyRequests) : pollCondition r = (false, some e) := by
  simp [pollCondition, h, hs]

/-- The three outcomes of an attempt exclude each other and cover every case. -/
theorem attempt_cases (r : AttemptResult) :
    r.err = none ∨ isRateLimited r ∨
      ∃ e, r.err = some e ∧ r.statusCode ≠ statusTooManyRequests := by
  cases he : r.err with
  | none => exact Or.inl rfl
  | some e =>
    by_cases hs : r.statusCode = statusTooManyRequests
    · exact Or.inr (Or.inl ⟨by simp [he], hs⟩)
    · exact Or.inr (Or.inr ⟨e, rfl, hs⟩)

theorem pollFrom_of_nil (attempt : Nat → AttemptResult) (budget k : Nat)
    (h : (attempt k).err = none) :
    pollFrom attempt budget k = { attempts := k + 1, ending := PollEnd.done } := by
  cases budget <;> simp [pollFrom, pollCondition_of_nil _ h]

theorem pollFrom_of_other (attempt : Nat → AttemptResult) (budget k : Nat) (e : String)
    (h : (attempt k).err = some e) (hs : (attempt k).statusCode ≠ statusTooManyRequests) :
    pollFrom attempt budget k = { attempts := k + 1, ending := PollEnd.failed e } := by
  cases budget <;> simp [pollFrom, pollCondition_of_other _ e h hs]

theorem pollFrom_zero_of_rateLimited (attempt : Nat → AttemptResult) (k : Nat)
    (h : isRateLimited (attempt k)) :
    pollFrom attempt 0 k = { attempts := k + 1, ending := PollEnd.deadline } := by
  simp [pollFrom, pollCondition_of_rateLimited _ h]

theorem pollFrom_succ_of_rateLimited (attempt : Nat → AttemptResult) (budget k : Nat)
    (h : isRateLimited (attempt k)) :
    pollFrom attempt (budget + 1) k = pollFrom attempt budget (k + 1) := by
  simp [pollFrom, pollCondition_of_rateLimited _ h]

/-- What a poll that starts with the call number `k` does: it makes between one and
`budget + 1` calls, every call that is followed by another one was rate-limited, and
the way it ends is decided by the last call. -/
theorem pollFrom_spec (attempt : Nat → AttemptResult) (budget k : Nat) :
    k + 1 ≤ (pollFrom attempt budget k).attempts ∧
    (pollFrom attempt budget k).attempts ≤ k + budget + 1 ∧
    (∀ i, k ≤ i → i + 1 < (pollFrom attempt budget k).attempts → isRateLimited (attempt i)) ∧
    (match (pollFrom attempt budget k).ending with
      | PollEnd.done => (attempt ((pollFrom attempt budget k).attempts - 1)).err = none
      | PollEnd.failed e =>
        (attempt ((pollFrom attempt budget k).attempts - 1)).err = some e ∧
          (attempt ((pollFrom attempt budget k).attempts - 1)).statusCode ≠ statusTooManyRequests
      | PollEnd.deadline =>
        (pollFrom attempt budget k).attempts = k + budget + 1 ∧
          isRateLimited (attempt ((pollFrom attempt budget k).attempts - 1))) := by
  induction budget generalizing k with
  | zero =>
    rcases attempt_cases (attempt k) with h | h | ⟨e, h, hs⟩
    · rw [pollFrom_of_nil attempt 0 k h]
      exact ⟨le_refl _, by dsimp only; omega, fun i hki hi => by dsimp only at hi; omega, by simpa using h⟩
    · rw [pollFrom_zero_of_rateLimited attempt k h]
      exact ⟨le_refl _, by dsimp only; omega, fun i hki hi => by dsimp only at hi; omega, by simpa using h⟩
    · rw [pollFrom_of_other attempt 0 k e h hs]
      exact ⟨le_refl _, by dsimp only; omega, fun i hki hi => by dsimp only at hi; omega, by simpa using ⟨h, hs⟩⟩
  | succ n ih =>
    rcases attempt_cases (attempt k) with h | h | ⟨e, h, hs⟩
    · rw [pollFrom_of_nil attempt (n + 1) k h]
      exact ⟨le_refl _, by dsimp only; omega, fun i hki hi => by dsimp only at hi; omega, by simpa using h⟩
    · rw [pollFrom_succ_of_rateLimited attempt n k h]
      obtain ⟨i1, i2, i3, i4⟩ := ih (k + 1)
      refine ⟨by omega, by omega, ?_, ?_⟩
      · intro i hki hi
        by_cases hik : i = k
        · rw [hik]; exact h
        · exact i3 i (by omega) hi
      · cases hend : (pollFrom attempt n (k + 1)).ending with
        | done =>
          rw [hend] at i4
          exact i4
        | failed e =>
          rw [hend] at i4
          exact i4
        | deadline =>
          rw [hend] at i4
          exact ⟨by omega, i4.2⟩
    · rw [pollFrom_of_other attempt (n + 1) k e h hs]
      exact ⟨le_refl _, by dsimp only; omega, fun i hki hi => by dsimp only at hi; omega, by simpa using ⟨h, hs⟩⟩

/-! ## Theorems -/

/-- C1: when `parseCorrectTestCases` completes, the entry under a key `p` of the final
mapping is determined by the events that follow the last `run p` event: its trace is
the in-order concatenation of the outputs of the `output`, `pass` and `fail` events
for `p` among them, and its status and elapsed time are those of the last `pass` or
`fail` event for `p` among them (elapsed unset when there is none, and status unset
when moreover no timeout marker occurred).  The events `run a/b`, `output a/b "log"`,
`pass a/b "1.2"` give exactly one entry
`{name: b, suite: [a], status: pass, elapsed: "1.2", trace: "log"}`. -/
theorem parseCorrectTestCases_last_write_wins (es : List GoTestOutput) (m : TestCaseMap)
    (p : String) (tc : GoTestCase)
    (h : parseCorrectTestCases es = some m) (hp : m.get p = some tc) :
    (∃ pre r post, es = pre ++ r :: post ∧ r.Action = "run" ∧ r.Test = p ∧
      (∀ x ∈ post, ¬ (x.Action = "run" ∧ x.Test = p)) ∧
      tc.StackTrace = traceOf p post ∧
      (match lastVerdict p post with
        | some v => tc.Status = v.Action ∧ tc.Elapsed = v.Elapsed
        | none => tc.Elapsed = "" ∧ (es.any isTimeout = false → tc.Status = ""))) ∧
    parseCorrectTestCases
        [{ Action := "run", Test := "a/b" },
         { Action := "output", Test := "a/b", Output := "log" },
         { Action := "pass", Test := "a/b", Elapsed := "1.2" }] =
      some [("a/b", { Name := "b", TestSuite := ["a"], Status := "pass",
                      Elapsed := "1.2", StackTrace := "log" })] := by
  refine ⟨?_, by decide⟩
  obtain ⟨st, tc0, hst, h0, htc⟩ := parseCorrectTestCases_get es m h p tc hp
  obtain ⟨_, _, _, post, i4, i5, i6, i7⟩ := runLoop_entryInv es st hst p tc0 h0
  obtain ⟨pre, r, hes, hr, hpost⟩ := afterLastRun_spec p es post i4
  simp only [isRunOf, Bool.and_eq_true, beq_iff_eq] at hr
  refine ⟨pre, r, post, hes, hr.1, hr.2, ?_, ?_, ?_⟩
  · intro x hx hcon
    have := hpost x hx
    simp [isRunOf, hcon.1, hcon.2] at this
  · rw [htc]
    exact i5
  · have htf := runLoop_timeoutFailure es initState st hst
    cases hv : lastVerdict p post with
    | some v =>
      simp only [hv, Option.map_some', Option.getD_some] at i6 i7
      have hne : tc0.Status ≠ "" := by
        rw [i6]
        exact isVerdictOf_action_ne_empty p v (lastVerdict_isVerdictOf p post v hv)
      subst htc
      simp only [finalizeTestCase, hne, and_false, if_false]
      exact ⟨i6, i7⟩
    | none =>
      simp only [hv, Option.map_none', Option.getD_none] at i6 i7
      subst htc
      refine ⟨by simp [finalizeTestCase, i7], ?_⟩
      intro hno
      simp only [initState, Bool.false_or] at htf
      simp [finalizeTestCase, htf, hno, i6]

/-- Witness for C1: the theorem applied to the events `run a/b`, `output a/b "log"`,
`run a/b`, `output a/b "x"`, `fail a/b "3"` and the key `a/b`. -/
theorem parseCorrectTestCases_last_write_wins_witness :
    parseCorrectTestCases
        [{ Action := "run", Test := "a/b" },
         { Action := "output", Test := "a/b", Output := "log" },
         { Action := "run", Test := "a/b" },
         { Action := "output", Test := "a/b", Output := "x" },
         { Action := "fail", Test := "a/b", Output := "y", Elapsed := "3" }] =
      some [("a/b", { Name := "b", TestSuite := ["a"], Status := "fail",
                      Elapsed := "3", StackTrace := "xy" })] ∧
    ∃ pre r post,
      ([{ Action := "run", Test := "a/b" },
        { Action := "output", Test := "a/b", Output := "log" },
        { Action := "run", Test := "a/b" },
        { Action := "output", Test := "a/b", Output := "x" },
        { Action := "fail", Test := "a/b", Output := "y", Elapsed := "3" }] : List GoTestOutput) =
        pre ++ r :: post ∧ r.Action = "run" ∧ r.Test = "a/b" ∧
      (∀ x ∈ post, ¬ (x.Action = "run" ∧ x.Test = "a/b")) ∧
      "xy" = traceOf "a/b" post :=
  ⟨by decide,
    let ⟨pre, r, post, h1, h2, h3, h4, h5, _⟩ :=
      (parseCorrectTestCases_last_write_wins
        [{ Action := "run", Test := "a/b" },
         { Action := "output", Test := "a/b", Output := "log" },
         { Action := "run", Test := "a/b" },
         { Action := "output", Test := "a/b", Output := "x" },
         { Action := "fail", Test := "a/b", Output := "y", Elapsed := "3" }]
        [("a/b", { Name := "b", TestSuite := ["a"], Status := "fail",
                   Elapsed := "3", StackTrace := "xy" })]
        "a/b"
        { Name := "b", TestSuite := ["a"], Status := "fail", Elapsed := "3", StackTrace := "xy" }
        (by decide) (by decide)).1
    ⟨pre, r, post, h1, h2, h3, h4, h5⟩⟩

/-- C2 (the claim as stated fails): after `run a/b/c`, `pass a/b/c`, `run a/b`,
`pass a/b` the final mapping still has an entry under the parent key `a/b`. -/
theorem parent_run_after_child_not_deleted :
    ¬ ∃ m, parseCorrectTestCases
        [{ Action := "run", Test := "a/b/c" }, { Action := "pass", Test := "a/b/c" },
         { Action := "run", Test := "a/b" }, { Action := "pass", Test := "a/b" }] = some m ∧
      m.get "a/b" = none := by
  decide

/-- C2 (amended): `run a/b/c`, `pass a/b/c`, `run a/b`, `pass a/b` yields a final
mapping with two entries, `a/b` as `{name: b, suite: [a], status: pass}` and `a/b/c` as
`{name: c, suite: [a, b], status: pass}`: a parent entry created after its child was
finalized is kept.  With the parent run before the child is finalized (`run a/b`,
`run a/b/c`, `pass a/b/c`, `pass a/b`) the parent entry is deleted and only `a/b/c`
survives, as `{name: c, suite: [a, b]}`. -/
theorem parent_deleted_only_when_present :
    parseCorrectTestCases
        [{ Action := "run", Test := "a/b/c" }, { Action := "pass", Test := "a/b/c" },
         { Action := "run", Test := "a/b" }, { Action := "pass", Test := "a/b" }] =
      some [("a/b", { Name := "b", TestSuite := ["a"], Status := "pass" }),
            ("a/b/c", { Name := "c", TestSuite := ["a", "b"], Status := "pass" })] ∧
    parseCorrectTestCases
        [{ Action := "run", Test := "a/b" }, { Action := "run", Test := "a/b/c" },
         { Action := "pass", Test := "a/b/c" }, { Action := "pass", Test := "a/b" }] =
      some [("a/b/c", { Name := "c", TestSuite := ["a", "b"], Status := "pass" })] := by
  decide

/-- C3 (the code fails here): an `output` event for a path with a separator and no
entry makes the reducer panic, whatever the state, so the whole call fails: on a stray
`output a/b`, and on `run a/b`, `run a/b/c`, `pass a/b/c`, `output a/b "done"`, where
the parent entry was removed by the parent deletion. -/
theorem output_without_entry_panics :
    (∀ (st : LoopState) (e : GoTestOutput), e.Action = "output" →
      containsSlash e.Test = true → st.finalTestCases.get e.Test = none →
      loopBody st e = none) ∧
    parseCorrectTestCases [{ Action := "output", Test := "a/b", Output := "x" }] = none ∧
    parseCorrectTestCases
        [{ Action := "run", Test := "a/b" }, { Action := "run", Test := "a/b/c" },
         { Action := "pass", Test := "a/b/c" },
         { Action := "output", Test := "a/b", Output := "done" }] = none := by
  refine ⟨?_, by decide, by decide⟩
  intro st e ha hs hg
  unfold loopBody
  have h1 : ¬ (e.Action = "run" ∧ containsSlash e.Test = true) := by
    rw [ha]; simp
  rw [if_neg h1, if_pos ⟨ha, hs⟩, hg]

/-- C4: if `parseCorrectTestCases` completes on `es ++ [skip p] ++ t`, where `t` has no
`run` event for `p`, then the final mapping has no entry under `p`, whatever `es` did
to `p` and whatever the shape of `p`. -/
theorem skip_removes_entry (es t : List GoTestOutput) (p out el : String) (m : TestCaseMap)
    (ht : ∀ x ∈ t, ¬ (x.Action = "run" ∧ x.Test = p))
    (h : parseCorrectTestCases
      (es ++ [{ Action := skipStatus, Test := p, Output := out, Elapsed := el }] ++ t) = some m) :
    m.get p = none := by
  obtain ⟨st, hst, hm⟩ := parseCorrectTestCases_eq_some _ m h
  subst hm
  rw [get_finalizeAll]
  rw [runLoop_append, runLoop_snoc] at hst
  cases h1 : runLoop initState es with
  | none => simp [h1] at hst
  | some st1 =>
    simp only [h1, Option.some_bind] at hst
    rw [loopBody_skip st1 _ rfl] at hst
    simp only [Option.some_bind] at hst
    have := runLoop_get_none t _ st p hst (by simp [TestCaseMap.get_delete]) ht
    simp [this]

/-- Witness for C4: `run a/b`, `pass a/b`, `skip a/b`, `output x/y` with the key
`a/b`. -/
theorem skip_removes_entry_witness :
    (∀ x ∈ ([{ Action := "run", Test := "x/y" }, { Action := "output", Test := "x/y" }] :
        List GoTestOutput), ¬ (x.Action = "run" ∧ x.Test = "a/b")) ∧
    parseCorrectTestCases
      ([{ Action := "run", Test := "a/b" }, { Action := "pass", Test := "a/b" }] ++
        [{ Action := skipStatus, Test := "a/b", Output := "", Elapsed := "" }] ++
        [{ Action := "run", Test := "x/y" }, { Action := "output", Test := "x/y" }]) =
      some [("x/y", { Name := "y", TestSuite := ["x"] })] ∧
    TestCaseMap.get [("x/y", { Name := "y", TestSuite := ["x"] })] "a/b" = none :=
  ⟨by decide, by decide,
    skip_removes_entry
      [{ Action := "run", Test := "a/b" }, { Action := "pass", Test := "a/b" }]
      [{ Action := "run", Test := "x/y" }, { Action := "output", Test := "x/y" }]
      "a/b" "" "" [("x/y", { Name := "y", TestSuite := ["x"] })] (by decide) (by decide)⟩

/-- C5 (the claim as stated fails): with two families interleaved, `run a/b/c`,
`run x/y/z`, `run a/b/d`, `pass a/b/c`, `pass x/y/z`, `pass a/b/d`, the reducer
completes and the parent deletion for `a/b` is executed twice.  With the parent present
each time (`run a/b`, `run a/b/c`, `run x/y/z`, `run a/b/d`, `pass a/b/c`, `run a/b`,
`pass x/y/z`, `pass a/b/d`) both executions remove an entry: `a/b` is absent after
`pass a/b/c`, present again before `pass a/b/d`, and absent after it. -/
theorem parent_deletion_repeated_when_interleaved :
    (runLoop initState
        [{ Action := "run", Test := "a/b/c" }, { Action := "run", Test := "x/y/z" },
         { Action := "run", Test := "a/b/d" }, { Action := "pass", Test := "a/b/c" },
         { Action := "pass", Test := "x/y/z" }, { Action := "pass", Test := "a/b/d" }]).map
      (fun st => (st.deletions, st.deletions.count "a/b")) = some (["a/b", "x/y", "a/b"], 2) ∧
    (runLoop initState
        [{ Action := "run", Test := "a/b" }, { Action := "run", Test := "a/b/c" },
         { Action := "run", Test := "x/y/z" }, { Action := "run", Test := "a/b/d" }]).map
      (fun st => ((st.finalTestCases.get "a/b").isSome, st.deletedTest)) = some (true, "") ∧
    (runLoop initState
        [{ Action := "run", Test := "a/b" }, { Action := "run", Test := "a/b/c" },
         { Action := "run", Test := "x/y/z" }, { Action := "run", Test := "a/b/d" },
         { Action := "pass", Test := "a/b/c" }]).map
      (fun st => ((st.finalTestCases.get "a/b").isSome, st.deletedTest)) = some (false, "a/b") ∧
    (runLoop initState
        [{ Action := "run", Test := "a/b" }, { Action := "run", Test := "a/b/c" },
         { Action := "run", Test := "x/y/z" }, { Action := "run", Test := "a/b/d" },
         { Action := "pass", Test := "a/b/c" }, { Action := "run", Test := "a/b" },
         { Action := "pass", Test := "x/y/z" }]).map
      (fun st => ((st.finalTestCases.get "a/b").isSome, st.deletedTest)) = some (true, "x/y") ∧
    (runLoop initState
        [{ Action := "run", Test := "a/b" }, { Action := "run", Test := "a/b/c" },
         { Action := "run", Test := "x/y/z" }, { Action := "run", Test := "a/b/d" },
         { Action := "pass", Test := "a/b/c" }, { Action := "run", Test := "a/b" },
         { Action := "pass", Test := "x/y/z" }, { Action := "pass", Test := "a/b/d" }]).map
      (fun st => ((st.finalTestCases.get "a/b").isSome, st.deletedTest)) = some (false, "a/b") := by
  decide

/-- C5 (amended): on every event sequence the first loop gets through, take a `pass` or
`fail` event that finalizes a tracked path `p` matching `multiSubTestReg`, and let `q`
be `subTestReg.FindString(p)`.  (a) If `q` differs from `deletedTest` at that moment, the
parent-deletion step is executed: right after the event there is no entry under `q`,
every entry under a key other than `q` and `p` is as before, and `deletedTest` is `q`.
(b) If `q` equals `deletedTest`, the step is skipped: every entry under a key other than
`p` is as before and `deletedTest` stays.  (c) Either way the step has been executed for
`q` at least once by then.  (d) No other event executes the step.  (e) Consecutive
executions have different keys, and `deletedTest` is the key of the most recent one
(empty before the first), so the step is executed again for `q` as soon as an execution
for another key has come in between. -/
theorem parent_deletion_exactly_when_key_differs (es : List GoTestOutput) (st : LoopState)
    (h : runLoop initState es = some st) :
    (∀ pre e post st0, es = pre ++ e :: post → runLoop initState pre = some st0 →
      (e.Action = failStatus ∨ e.Action = passStatus) → containsSlash e.Test = true →
      st0.finalTestCases.get e.Test ≠ none → multiSubTestRegMatchString e.Test = true →
      ∃ st1, loopBody st0 e = some st1 ∧
        (subTestRegFindString e.Test ≠ st0.deletedTest →
          st1.finalTestCases.get (subTestRegFindString e.Test) = none ∧
          (∀ k, k ≠ subTestRegFindString e.Test → k ≠ e.Test →
            st1.finalTestCases.get k = st0.finalTestCases.get k) ∧
          st1.deletedTest = subTestRegFindString e.Test ∧
          st1.deletions = st0.deletions ++ [subTestRegFindString e.Test]) ∧
        (subTestRegFindString e.Test = st0.deletedTest →
          (∀ k, k ≠ e.Test → st1.finalTestCases.get k = st0.finalTestCases.get k) ∧
          st1.deletedTest = st0.deletedTest ∧ st1.deletions = st0.deletions) ∧
        subTestRegFindString e.Test ∈ st1.deletions ∧
        subTestRegFindString e.Test ∈ st.deletions) ∧
    (∀ pre e post st0 st1, es = pre ++ e :: post → runLoop initState pre = some st0 →
      loopBody st0 e = some st1 → st1.deletions ≠ st0.deletions →
      (e.Action = failStatus ∨ e.Action = passStatus) ∧ containsSlash e.Test = true ∧
      st0.finalTestCases.get e.Test ≠ none ∧ multiSubTestRegMatchString e.Test = true ∧
      subTestRegFindString e.Test ≠ st0.deletedTest) ∧
    List.Chain' (fun a b => a ≠ b) st.deletions ∧
    st.deletedTest = st.deletions.getLast?.getD "" := by
  have hinv := runLoop_deletionInv es initState st h initState_deletionInv
  refine ⟨?_, ?_, hinv.2, hinv.1⟩
  · intro pre e post st0 hes hpre ha hs hg hmulti
    subst hes
    obtain ⟨st1, hb, hpost⟩ := runLoop_split pre post e st0 st h hpre
    refine ⟨st1, hb, ?_⟩
    have hmem1 := verdict_key_mem_deletions pre st0 st1 e hpre ha hs hg hmulti hb
    have hmem : subTestRegFindString e.Test ∈ st.deletions :=
      runLoop_deletions_mono post st1 st hpost _ hmem1
    cases hg0 : st0.finalTestCases.get e.Test with
    | none => exact absurd hg0 hg
    | some tc0 =>
      have hname : tc0.Name = e.Test := (runLoop_entryInv pre st0 hpre e.Test tc0 hg0).1
      rw [loopBody_verdict st0 e tc0 ha hs hg0, hname] at hb
      by_cases hd : subTestRegFindString e.Test = st0.deletedTest
      · rw [if_neg (fun hc => hc.2 hd)] at hb
        simp only [Option.some.injEq] at hb
        subst hb
        refine ⟨fun hne => absurd hd hne, fun _ => ⟨?_, rfl, rfl⟩, hmem1, hmem⟩
        intro k hk
        simp [TestCaseMap.get_set, hk]
      · rw [if_pos ⟨hmulti, hd⟩] at hb
        simp only [Option.some.injEq] at hb
        subst hb
        refine ⟨fun _ => ⟨?_, ?_, rfl, rfl⟩, fun heq => absurd heq hd, hmem1, hmem⟩
        · simp [TestCaseMap.get_delete]
        · intro k hk1 hk2
          simp [TestCaseMap.get_delete, TestCaseMap.get_set, hk1, hk2]
  · intro pre e post st0 st1 _ hpre hb hchg
    obtain ⟨ha, hs, tc0, hg0, hm, hd⟩ := loopBody_deletions_change st0 st1 e hb hchg
    have hname : tc0.Name = e.Test := (runLoop_entryInv pre st0 hpre e.Test tc0 hg0).1
    rw [hname] at hm hd
    exact ⟨ha, hs, by simp [hg0], hm, hd⟩

/-- Witness for C5: in `run a/b`, `run a/b/c`, `run a/b/d`, `pass a/b/c`, `pass a/b/d`
the event `pass a/b/c` finds the parent entry `a/b` and removes it. -/
theorem parent_deletion_exactly_when_key_differs_witness :
    runLoop initState
        [{ Action := "run", Test := "a/b" }, { Action := "run", Test := "a/b/c" },
         { Action := "run", Test := "a/b/d" }, { Action := "pass", Test := "a/b/c" },
         { Action := "pass", Test := "a/b/d" }] =
      some { finalTestCases := [("a/b/d", { Name := "a/b/d", Status := "pass" }),
                                ("a/b/c", { Name := "a/b/c", Status := "pass" })]
             deletedTest := "a/b"
             deletions := ["a/b"] } ∧
    subTestRegFindString "a/b/c" = "a/b" ∧
    TestCaseMap.get [("a/b/d", { Name := "a/b/d" }), ("a/b/c", { Name := "a/b/c" }),
      ("a/b", { Name := "a/b" })] "a/b" ≠ none ∧
    ∃ st1, loopBody
        { finalTestCases := [("a/b/d", { Name := "a/b/d" }), ("a/b/c", { Name := "a/b/c" }),
                             ("a/b", { Name := "a/b" })] }
        { Action := "pass", Test := "a/b/c" } = some st1 ∧
      st1.finalTestCases.get (subTestRegFindString "a/b/c") = none ∧
      st1.deletedTest = subTestRegFindString "a/b/c" :=
  ⟨by decide, by decide, by decide,
    let ⟨st1, h1, h2, _⟩ :=
      (parent_deletion_exactly_when_key_differs
        [{ Action := "run", Test := "a/b" }, { Action := "run", Test := "a/b/c" },
         { Action := "run", Test := "a/b/d" }, { Action := "pass", Test := "a/b/c" },
         { Action := "pass", Test := "a/b/d" }]
        { finalTestCases := [("a/b/d", { Name := "a/b/d", Status := "pass" }),
                             ("a/b/c", { Name := "a/b/c", Status := "pass" })]
          deletedTest := "a/b"
          deletions := ["a/b"] } (by decide)).1
        [{ Action := "run", Test := "a/b" }, { Action := "run", Test := "a/b/c" },
         { Action := "run", Test := "a/b/d" }]
        { Action := "pass", Test := "a/b/c" }
        [{ Action := "pass", Test := "a/b/d" }]
        { finalTestCases := [("a/b/d", { Name := "a/b/d" }), ("a/b/c", { Name := "a/b/c" }),
                             ("a/b", { Name := "a/b" })] }
        (by decide) (by decide) (by decide) (by decide) (by decide) (by decide)
    ⟨st1, h1, (h2 (by decide)).1, (h2 (by decide)).2.2.1⟩⟩

/-- C6: when `parseCorrectTestCases` completes, the entry under a key `k` of the final
mapping has the last slash-separated segment of `k` as its name and the remaining
segments, in order, as its suite; joining suite and name with `/` gives `k` back. -/
theorem parseCorrectTestCases_name_suite (es : List GoTestOutput) (m : TestCaseMap)
    (k : String) (tc : GoTestCase)
    (h : parseCorrectTestCases es = some m) (hk : m.get k = some tc) :
    stringsSplit k = tc.TestSuite ++ [tc.Name] ∧ stringsJoin (tc.TestSuite ++ [tc.Name]) = k := by
  obtain ⟨st, tc0, hst, h0, htc⟩ := parseCorrectTestCases_get es m h k tc hk
  have hname : tc0.Name = k := (runLoop_entryInv es st hst k tc0 h0).1
  have hsplit : stringsSplit k = tc.TestSuite ++ [tc.Name] := by
    subst htc
    simp only [finalizeTestCase, hname]
    exact (take_append_getD_last (stringsSplit k) "" (stringsSplit_ne_nil k)).symm
  exact ⟨hsplit, by rw [← hsplit, stringsJoin_stringsSplit]⟩

/-- Witness for C6: `run a/b/c`, `pass a/b/c` and the key `a/b/c`. -/
theorem parseCorrectTestCases_name_suite_witness :
    parseCorrectTestCases
        [{ Action := "run", Test := "a/b/c" }, { Action := "pass", Test := "a/b/c" }] =
      some [("a/b/c", { Name := "c", TestSuite := ["a", "b"], Status := "pass" })] ∧
    stringsSplit "a/b/c" = ["a", "b"] ++ ["c"] ∧ stringsJoin (["a", "b"] ++ ["c"]) = "a/b/c" :=
  ⟨by decide,
    parseCorrectTestCases_name_suite
      [{ Action := "run", Test := "a/b/c" }, { Action := "pass", Test := "a/b/c" }]
      [("a/b/c", { Name := "c", TestSuite := ["a", "b"], Status := "pass" })]
      "a/b/c" { Name := "c", TestSuite := ["a", "b"], Status := "pass" }
      (by decide) (by decide)⟩

/-- C7: when the event sequence contains a `fail` event with an empty path and
`parseCorrectTestCases` completes, no entry of the final mapping has unset status: an
entry that received no `pass` or `fail` event since its last `run` has status `fail`,
and an entry that received one has the status of the last such event. -/
theorem timeout_forces_fail (es : List GoTestOutput) (m : TestCaseMap)
    (p : String) (tc : GoTestCase)
    (ht : ∃ e ∈ es, e.Action = failStatus ∧ e.Test = "")
    (h : parseCorrectTestCases es = some m) (hp : m.get p = some tc) :
    tc.Status ≠ "" ∧
    ∃ pre r post, es = pre ++ r :: post ∧ r.Action = "run" ∧ r.Test = p ∧
      (∀ x ∈ post, ¬ (x.Action = "run" ∧ x.Test = p)) ∧
      (match lastVerdict p post with
        | some v => tc.Status = v.Action
        | none => tc.Status = failStatus) := by
  obtain ⟨st, tc0, hst, h0, htc⟩ := parseCorrectTestCases_get es m h p tc hp
  obtain ⟨_, _, _, post, i4, _, i6, _⟩ := runLoop_entryInv es st hst p tc0 h0
  obtain ⟨pre, r, hes, hr, hpost⟩ := afterLastRun_spec p es post i4
  simp only [isRunOf, Bool.and_eq_true, beq_iff_eq] at hr
  have htf : st.timeoutFailure = true := by
    rw [runLoop_timeoutFailure es initState st hst]
    obtain ⟨e, he, ha, hE⟩ := ht
    simp only [Bool.or_eq_true, List.any_eq_true]
    exact Or.inr ⟨e, he, by simp [isTimeout, ha, hE]⟩
  have hstatus : match lastVerdict p post with
      | some v => tc.Status = v.Action
      | none => tc.Status = failStatus := by
    cases hv : lastVerdict p post with
    | some v =>
      simp only [hv, Option.map_some', Option.getD_some] at i6
      have hne : tc0.Status ≠ "" := by
        rw [i6]
        exact isVerdictOf_action_ne_empty p v (lastVerdict_isVerdictOf p post v hv)
      subst htc
      simp only [finalizeTestCase, hne, and_false, if_false]
      exact i6
    | none =>
      simp only [hv, Option.map_none', Option.getD_none] at i6
      subst htc
      simp [finalizeTestCase, htf, i6]
  refine ⟨?_, pre, r, post, hes, hr.1, hr.2, ?_, hstatus⟩
  · cases hv : lastVerdict p post with
    | some v =>
      rw [hv] at hstatus
      simp only at hstatus
      rw [hstatus]
      exact isVerdictOf_action_ne_empty p v (lastVerdict_isVerdictOf p post v hv)
    | none =>
      rw [hv] at hstatus
      simp only at hstatus
      rw [hstatus]
      simp [failStatus]
  · intro x hx hcon
    have := hpost x hx
    simp [isRunOf, hcon.1, hcon.2] at this

/-- Witness for C7: `run a/b`, `fail ""` and the key `a/b`, whose entry has no verdict
of its own. -/
theorem timeout_forces_fail_witness :
    (∃ e ∈ ([{ Action := "run", Test := "a/b" }, { Action := "fail", Test := "" }] :
        List GoTestOutput), e.Action = failStatus ∧ e.Test = "") ∧
    parseCorrectTestCases [{ Action := "run", Test := "a/b" }, { Action := "fail", Test := "" }] =
      some [("a/b", { Name := "b", TestSuite := ["a"], Status := "fail" })] ∧
    ("fail" : String) ≠ "" :=
  ⟨by decide, by decide,
    (timeout_forces_fail
      [{ Action := "run", Test := "a/b" }, { Action := "fail", Test := "" }]
      [("a/b", { Name := "b", TestSuite := ["a"], Status := "fail" })]
      "a/b" { Name := "b", TestSuite := ["a"], Status := "fail" }
      (by decide) (by decide) (by decide)).1⟩

/-- C9 (the claim as stated fails): after `run a/b/c`, `run a/b/c/d`, with no parent
deletion triggered so far, the event `pass a/b/c/d` finalizes a tracked path of four
segments and the entry of its immediate parent `a/b/c` is still there; and after
`run a/b-x`, `run a/b-x/c` the event `pass a/b-x/c` on a three-segment path leaves the
entry of its parent `a/b-x`. -/
theorem immediate_parent_not_deleted :
    (∃ (es : List GoTestOutput) (st st' : LoopState) (e : GoTestOutput),
      runLoop initState es = some st ∧ st.deletions = [] ∧
      (e.Action = failStatus ∨ e.Action = passStatus) ∧ containsSlash e.Test = true ∧
      st.finalTestCases.get e.Test ≠ none ∧ 2 < (stringsSplit e.Test).length ∧
      loopBody st e = some st' ∧ st'.finalTestCases.get (parentPath e.Test) ≠ none) ∧
    (runLoop initState
        [{ Action := "run", Test := "a/b-x" }, { Action := "run", Test := "a/b-x/c" },
         { Action := "pass", Test := "a/b-x/c" }]).map
      (fun st => (st.finalTestCases.keys, st.deletions)) = some (["a/b-x/c", "a/b-x"], []) :=
  ⟨⟨[{ Action := "run", Test := "a/b/c" }, { Action := "run", Test := "a/b/c/d" }],
      { finalTestCases := [("a/b/c/d", { Name := "a/b/c/d" }), ("a/b/c", { Name := "a/b/c" })] },
      { finalTestCases := [("a/b/c/d", { Name := "a/b/c/d", Status := "pass" }),
                           ("a/b/c", { Name := "a/b/c" })]
        deletedTest := "a/b"
        deletions := ["a/b"] },
      { Action := "pass", Test := "a/b/c/d" },
      by decide, by decide, by decide, by decide, by decide, by decide, by decide, by decide⟩,
    by decide⟩

/-- C9 (amended): when no earlier event has triggered a parent deletion and a `pass` or
`fail` event finalizes a tracked path `p`, then (1) if `p` matches `multiSubTestReg`,
the entry keyed by `subTestReg.FindString(p)` is absent right after that event; (2) if
`p` consists of exactly three non-empty word segments, the entry keyed by the
immediate parent path of `p` is absent right after that event. -/
theorem first_verdict_deletes_subTest_match (es : List GoTestOutput) (st : LoopState)
    (e : GoTestOutput)
    (hreach : runLoop initState es = some st) (hno : st.deletions = [])
    (ha : e.Action = failStatus ∨ e.Action = passStatus) (hs : containsSlash e.Test = true)
    (hg : st.finalTestCases.get e.Test ≠ none) :
    (multiSubTestRegMatchString e.Test = true →
      ∃ st', loopBody st e = some st' ∧
        st'.finalTestCases.get (subTestRegFindString e.Test) = none) ∧
    (∀ a b c, stringsSplit e.Test = [a, b, c] →
      (∀ x ∈ a.data, isWordChar x = true) → a ≠ "" →
      (∀ x ∈ b.data, isWordChar x = true) → b ≠ "" →
      (∀ x ∈ c.data, isWordChar x = true) → c ≠ "" →
      ∃ st', loopBody st e = some st' ∧ st'.finalTestCases.get (parentPath e.Test) = none) := by
  have hfirst : multiSubTestRegMatchString e.Test = true →
      ∃ st', loopBody st e = some st' ∧
        st'.finalTestCases.get (subTestRegFindString e.Test) = none := by
    intro hmulti
    cases hg0 : st.finalTestCases.get e.Test with
    | none => exact absurd hg0 hg
    | some tc0 =>
      have hname : tc0.Name = e.Test := (runLoop_entryInv es st hreach e.Test tc0 hg0).1
      have hinv := runLoop_deletionInv es initState st hreach initState_deletionInv
      have hdel : st.deletedTest = "" := by
        rw [hinv.1, hno]
        rfl
      have hne : subTestRegFindString e.Test ≠ st.deletedTest := by
        rw [hdel]
        exact subTestRegFindString_ne_empty e.Test hmulti
      rw [loopBody_verdict st e tc0 ha hs hg0, hname, if_pos ⟨hmulti, hne⟩]
      exact ⟨_, rfl, by simp [TestCaseMap.get_delete]⟩
  refine ⟨hfirst, ?_⟩
  intro a b c hsplit haw hane hbw hbne hcw hcne
  have hmulti := multiSubTestRegMatchString_three_words e.Test a b c [] hsplit
    haw hane hbw hbne hcw hcne
  have hfind := subTestRegFindString_two_words e.Test a b [c] hsplit haw hane hbw hbne
  have hparent : parentPath e.Test = a ++ "/" ++ b := by
    simp [parentPath, hsplit, stringsJoin]
  rw [hparent, ← hfind]
  exact hfirst hmulti

/-- Witness for C9: after `run a/b`, `run a/b/c`, the event `pass a/b/c`. -/
theorem first_verdict_deletes_subTest_match_witness :
    runLoop initState [{ Action := "run", Test := "a/b" }, { Action := "run", Test := "a/b/c" }] =
      some { finalTestCases := [("a/b/c", { Name := "a/b/c" }), ("a/b", { Name := "a/b" })] } ∧
    ∃ st', loopBody
        { finalTestCases := [("a/b/c", { Name := "a/b/c" }), ("a/b", { Name := "a/b" })] }
        { Action := "pass", Test := "a/b/c" } = some st' ∧
      st'.finalTestCases.get (parentPath "a/b/c") = none :=
  ⟨by decide,
    (first_verdict_deletes_subTest_match
      [{ Action := "run", Test := "a/b" }, { Action := "run", Test := "a/b/c" }]
      { finalTestCases := [("a/b/c", { Name := "a/b/c" }), ("a/b", { Name := "a/b" })] }
      { Action := "pass", Test := "a/b/c" }
      (by decide) (by decide) (by decide) (by decide) (by decide)).2 "a" "b" "c"
      (by decide) (by decide) (by decide) (by decide) (by decide) (by decide) (by decide)⟩

/-- C10: when `parseCorrectTestCases` completes, every key of the final mapping
contains the separator and is the path of some `run` event of the sequence; a `run`,
`output`, `pass` or `fail` event whose path has no separator leaves the mapping as it
is, and so does a `pass` or `fail` event for a path that has no entry. -/
theorem only_run_with_separator_creates (es : List GoTestOutput) (m : TestCaseMap)
    (h : parseCorrectTestCases es = some m) :
    (∀ k ∈ m.keys, containsSlash k = true ∧ ∃ e ∈ es, e.Action = "run" ∧ e.Test = k) ∧
    (∀ (st : LoopState) (e : GoTestOutput),
      (e.Action = "run" ∨ e.Action = "output" ∨ e.Action = passStatus ∨ e.Action = failStatus) →
      containsSlash e.Test = false →
      ∃ st', loopBody st e = some st' ∧ st'.finalTestCases = st.finalTestCases) ∧
    (∀ (st : LoopState) (e : GoTestOutput),
      (e.Action = passStatus ∨ e.Action = failStatus) →
      st.finalTestCases.get e.Test = none →
      ∃ st', loopBody st e = some st' ∧ st'.finalTestCases = st.finalTestCases) := by
  refine ⟨?_, ?_, ?_⟩
  · intro k hk
    rw [TestCaseMap.mem_keys_iff] at hk
    cases hg : m.get k with
    | none => exact absurd hg hk
    | some tc =>
      obtain ⟨st, tc0, hst, h0, _⟩ := parseCorrectTestCases_get es m h k tc hg
      obtain ⟨_, i2, _, post, i4, _⟩ := runLoop_entryInv es st hst k tc0 h0
      obtain ⟨pre, r, hes, hr, _⟩ := afterLastRun_spec k es post i4
      simp only [isRunOf, Bool.and_eq_true, beq_iff_eq] at hr
      exact ⟨i2, r, by simp [hes], hr.1, hr.2⟩
  · intro st e ha hs
    have hs' : ¬ (containsSlash e.Test = true) := by simp [hs]
    unfold loopBody
    rw [if_neg (fun hc => hs' hc.2), if_neg (fun hc => hs' hc.2)]
    have h3 : ¬ (e.Action = skipStatus) := by
      rcases ha with ha | ha | ha | ha <;> (rw [ha]; simp [skipStatus, passStatus, failStatus])
    rw [if_neg h3, if_neg (fun hc => hs' hc.2)]
    split_ifs
    · exact ⟨_, rfl, rfl⟩
    · exact ⟨_, rfl, rfl⟩
  · intro st e ha hg
    have h1 : ¬ (e.Action = "run" ∧ containsSlash e.Test = true) := by
      rcases ha with ha | ha <;> (rw [ha]; simp [failStatus, passStatus])
    have h2 : ¬ (e.Action = "output" ∧ containsSlash e.Test = true) := by
      rcases ha with ha | ha <;> (rw [ha]; simp [failStatus, passStatus])
    have h3 : ¬ (e.Action = skipStatus) := by
      rcases ha with ha | ha <;> (rw [ha]; simp [failStatus, passStatus, skipStatus])
    unfold loopBody
    rw [if_neg h1, if_neg h2, if_neg h3, hg]
    split_ifs
    · exact ⟨_, rfl, rfl⟩
    · exact ⟨_, rfl, rfl⟩
    · exact ⟨_, rfl, rfl⟩

/-- Witness for C10: `run TestA`, `pass x/y`, `run a/b`, `pass TestA`, where only
`run a/b` creates an entry. -/
theorem only_run_with_separator_creates_witness :
    parseCorrectTestCases
        [{ Action := "run", Test := "TestA" }, { Action := "pass", Test := "x/y" },
         { Action := "run", Test := "a/b" }, { Action := "pass", Test := "TestA" }] =
      some [("a/b", { Name := "b", TestSuite := ["a"] })] ∧
    ∀ k ∈ TestCaseMap.keys [("a/b", { Name := "b", TestSuite := ["a"] })],
      containsSlash k = true ∧
      ∃ e ∈ ([{ Action := "run", Test := "TestA" }, { Action := "pass", Test := "x/y" },
              { Action := "run", Test := "a/b" }, { Action := "pass", Test := "TestA" }] :
            List GoTestOutput), e.Action = "run" ∧ e.Test = k :=
  ⟨by decide,
    (only_run_with_separator_creates
      [{ Action := "run", Test := "TestA" }, { Action := "pass", Test := "x/y" },
       { Action := "run", Test := "a/b" }, { Action := "pass", Test := "TestA" }]
      [("a/b", { Name := "b", TestSuite := ["a"] })] (by decide)).1⟩

/-- C11: for every pair `(statusCode, err)` returned by an attempt of `reportTestQases`,
the condition function of the poll in `main` reports done without error exactly when
`err` is nil, asks for another attempt exactly when `err` is not nil and the status is
429, and otherwise returns that error.  Hence in every run of the loop each attempt
that is followed by another one was rate-limited, and the loop stops right at the
first attempt that is not rate-limited (when it comes before the deadline):
successfully if that attempt had no error, with its error otherwise. -/
theorem poll_stops_at_first_terminal_attempt (attempt : Nat → AttemptResult) (budget : Nat) :
    (∀ r : AttemptResult,
      (pollCondition r = (true, none) ↔ r.err = none) ∧
      (pollCondition r = (false, none) ↔ (r.err ≠ none ∧ r.statusCode = 429)) ∧
      (∀ e, pollCondition r = (false, some e) ↔ (r.err = some e ∧ r.statusCode ≠ 429))) ∧
    (∀ i, i + 1 < (pollUntilContextTimeout attempt budget).attempts →
      (attempt i).err ≠ none ∧ (attempt i).statusCode = 429) ∧
    (∀ j, j ≤ budget →
      (∀ i, i < j → (attempt i).err ≠ none ∧ (attempt i).statusCode = 429) →
      ¬ ((attempt j).err ≠ none ∧ (attempt j).statusCode = 429) →
      (pollUntilContextTimeout attempt budget).attempts = j + 1 ∧
      (pollUntilContextTimeout attempt budget).ending =
        match (attempt j).err with
        | none => PollEnd.done
        | some e => PollEnd.failed e) := by
  have hcond : ∀ r : AttemptResult,
      (pollCondition r = (true, none) ↔ r.err = none) ∧
      (pollCondition r = (false, none) ↔ (r.err ≠ none ∧ r.statusCode = 429)) ∧
      (∀ e, pollCondition r = (false, some e) ↔ (r.err = some e ∧ r.statusCode ≠ 429)) := by
    intro r
    rcases attempt_cases r with h | h | ⟨e0, h, hs⟩
    · rw [pollCondition_of_nil r h]
      simp [h]
    · rw [pollCondition_of_rateLimited r h]
      obtain ⟨h1, h2⟩ := h
      simp only [statusTooManyRequests] at h2
      simp [h1, h2]
    · rw [pollCondition_of_other r e0 h hs]
      simp only [statusTooManyRequests] at hs
      simp [h, hs]
  obtain ⟨s1, s2, s3, s4⟩ := pollFrom_spec attempt budget 0
  have hretry : ∀ i, i + 1 < (pollUntilContextTimeout attempt budget).attempts →
      (attempt i).err ≠ none ∧ (attempt i).statusCode = 429 :=
    fun i hi => s3 i (Nat.zero_le i) hi
  refine ⟨hcond, hretry, ?_⟩
  intro j hj hbefore hterm
  have hlast : (pollUntilContextTimeout attempt budget).attempts = j + 1 := by
    by_contra hne
    rcases Nat.lt_or_gt_of_ne hne with hlt | hgt
    · -- the loop stopped earlier, at a rate-limited attempt: it ran into the deadline
      have hrl := hbefore ((pollFrom attempt budget 0).attempts - 1)
        (by unfold pollUntilContextTimeout at hlt; omega)
      cases hend : (pollFrom attempt budget 0).ending with
      | done =>
        rw [hend] at s4
        exact hrl.1 s4
      | failed e =>
        rw [hend] at s4
        exact s4.2 hrl.2
      | deadline =>
        rw [hend] at s4
        unfold pollUntilContextTimeout at hlt
        omega
    · exact hterm (hretry j hgt)
  refine ⟨hlast, ?_⟩
  unfold pollUntilContextTimeout at hlast ⊢
  have hidx : (pollFrom attempt budget 0).attempts - 1 = j := by omega
  rw [hidx] at s4
  cases hend : (pollFrom attempt budget 0).ending with
  | done =>
    rw [hend] at s4
    simp only at s4
    rw [s4]
  | failed e =>
    rw [hend] at s4
    simp only at s4
    rw [s4.1]
  | deadline =>
    rw [hend] at s4
    exact absurd s4.2 hterm

/-- Witness for C11: two rate-limited attempts followed by a failure with status 500,
with a budget of 120 intervals; the loop makes three calls and returns that error. -/
theorem poll_stops_at_first_terminal_attempt_witness :
    120 ≥ 2 ∧
    (pollUntilContextTimeout
        (fun i => if i < 2 then { statusCode := 429, err := some "too many requests" }
                  else { statusCode := 500, err := some "boom" }) 120).attempts = 2 + 1 ∧
    (pollUntilContextTimeout
        (fun i => if i < 2 then { statusCode := 429, err := some "too many requests" }
                  else { statusCode := 500, err := some "boom" }) 120).ending =
      PollEnd.failed "boom" :=
  ⟨by decide,
    (poll_stops_at_first_terminal_attempt
      (fun i => if i < 2 then { statusCode := 429, err := some "too many requests" }
                else { statusCode := 500, err := some "boom" }) 120).2.2 2
      (by decide) (by decide) (by decide)⟩

end QaseReporter
